import Mathlib

/-!
# Weighted Voronoi stippling kernel: cell-index encoding, read-back and moment accumulation

A shallow embedding of `src/src/voronoidiagram.cpp` (namespace `CellEncoder`, class `IndexMap`,
the CPU part of `VoronoiDiagram::calculate`) and of `src/src/voronoicell.cpp`
(`accumulateCells`).

Conventions of the embedding.

* `uint32_t`, `uint8_t`, `int32_t` values are natural numbers; a `uint32_t` shift or counter
  that can leave the 32-bit range is reduced modulo `2 ^ 32` explicitly. The `int` products
  `x * y`, `x * x`, `y * y` of the pixel loop are 32-bit two's complement products
  (`mulInt32`): they wrap from coordinate `46341` on. The buffer offsets of the read-back
  are exact.
* A `QVector` holds at most `2 ^ 31 - 1` entries, so an index map has fewer than `2 ^ 31`
  pixels and the `uint32_t` area counters never wrap; they are plain natural numbers.
* An access `v[i]` outside a vector is undefined behaviour in the source. Reads are modelled
  with a default value and writes leave the vector unchanged.
* `float` values are rationals, so every sum, product and quotient is exact.
  The slice count of the cone tessellation is written for any ordered field with a floor
  and is read over the reals, with the real square root, arc cosine and `pi`.
* The GPU is not modelled: the bytes that `glReadPixels` stores in `pixelBuffer` are an
  input of `calculate`.
* A failed `assert` is an error result of the call.
-/

set_option linter.unusedVariables false

/-! ## Cell encoder -/

namespace CellEncoder

/-- The three 8-bit channels `r`, `g`, `b` that `CellEncoder::encode` computes from `index`,
before each one is divided by `255.0f`. -/
def encodeChannels (index : Nat) : Nat × Nat × Nat :=
  let r := (index >>> 16) &&& 0xff
  let g := (index >>> 8) &&& 0xff
  let b := (index >>> 0) &&& 0xff
  (r, g, b)

/-- The function `CellEncoder::encode`: the colour
`QVector3D(r / 255.0f, g / 255.0f, b / 255.0f)`. -/
def encode (index : Nat) : ℚ × ℚ × ℚ :=
  let r := (index >>> 16) &&& 0xff
  let g := (index >>> 8) &&& 0xff
  let b := (index >>> 0) &&& 0xff
  ((r : ℚ) / 255, (g : ℚ) / 255, (b : ℚ) / 255)

/-- The function `CellEncoder::decode`: `0x00000000 | (r << 16) | (g << 8) | b` on
`uint32_t` operands. -/
def decode (r g b : Nat) : Nat :=
  0x00000000 ||| ((r <<< 16) % 2 ^ 32) ||| ((g <<< 8) % 2 ^ 32) ||| b

end CellEncoder

/-! ## Index map -/

/-- The class `IndexMap`: public `width`, `height`, private `m_numEncoded` and `m_data`. -/
structure IndexMap where
  width : Nat
  height : Nat
  m_numEncoded : Nat
  m_data : List Nat
  deriving DecidableEq

namespace IndexMap

/-- The constructor `IndexMap::IndexMap(w, h, count)`: `m_data` is `QVector<uint32_t>(w * h)`,
that is `w * h` zeros. -/
def new (w h count : Nat) : IndexMap :=
  { width := w, height := h, m_numEncoded := count, m_data := List.replicate (w * h) 0 }

/-- The method `IndexMap::set`: `m_data[y * width + x] = value`. -/
def set (m : IndexMap) (x y value : Nat) : IndexMap :=
  { m with m_data := m.m_data.set (y * m.width + x) value }

/-- The method `IndexMap::get`: `m_data[y * width + x]`. -/
def get (m : IndexMap) (x y : Nat) : Nat :=
  m.m_data.getD (y * m.width + x) 0

/-- The method `IndexMap::count`: the stored `m_numEncoded`. -/
def count (m : IndexMap) : Nat := m.m_numEncoded

end IndexMap

/-! ## The read-back part of `VoronoiDiagram::calculate` -/

/-- A `QVector2D`: one site position. -/
structure QVector2D where
  x : ℚ
  y : ℚ
  deriving DecidableEq

/-- The two assertions of `VoronoiDiagram::calculate`. -/
inductive CalcError where
  /-- The assertion `assert(!points.empty())` failed. -/
  | emptyPoints
  /-- The assertion `assert(index <= points.size())` failed. -/
  | indexAssertion
  deriving DecidableEq

/-- The colour buffer that `calculate` fills with `std::generate`: entry `k` is
`CellEncoder::encode(n++)` for the `uint32_t` counter `n` that starts at `0`. -/
def calculateColors (points : List QVector2D) : List (ℚ × ℚ × ℚ) :=
  (List.range points.length).map (fun n => CellEncoder.encode (n % 2 ^ 32))

/-- The bytes of the colour set by `glClearColor(1.0f, 1.0f, 1.0f, 1.0f)` as they are read
back with `GL_RGB`, `GL_UNSIGNED_BYTE`: white. -/
def clearColorBytes : Nat × Nat × Nat := (255, 255, 255)

/-- The index decoded at map position `(x, y)`: the three bytes at offset
`(flippedY * width + x) * channels` with `flippedY = height - 1 - y` and `channels = 3`. -/
def decodeAt (pixelBuffer : List Nat) (width height x y : Nat) : Nat :=
  let flippedY := height - 1 - y
  let i := (flippedY * width + x) * 3
  let r := pixelBuffer.getD i 0
  let g := pixelBuffer.getD (i + 1) 0
  let b := pixelBuffer.getD (i + 2) 0
  CellEncoder.decode r g b

/-- The body of the inner read-back loop: decode, assert, store. -/
def readPixel (pixelBuffer : List Nat) (width height numPoints : Nat) (y : Nat)
    (idxMap : IndexMap) (x : Nat) : Except CalcError IndexMap :=
  let index := decodeAt pixelBuffer width height x y
  if index ≤ numPoints then .ok (idxMap.set x y index) else .error .indexAssertion

/-- The inner loop `for (int x = 0; x < width; ++x)`. -/
def readRow (pixelBuffer : List Nat) (width height numPoints : Nat)
    (idxMap : IndexMap) (y : Nat) : Except CalcError IndexMap :=
  (List.range width).foldlM (readPixel pixelBuffer width height numPoints y) idxMap

/-- The method `VoronoiDiagram::calculate`, with the frame buffer size (`width`, `height`)
and the bytes read back from it (`pixelBuffer`, tightly packed RGB) as inputs. -/
def calculate (points : List QVector2D) (width height : Nat) (pixelBuffer : List Nat) :
    Except CalcError IndexMap :=
  if points.isEmpty then .error .emptyPoints
  else
    let idxMap := IndexMap.new width height points.length
    (List.range height).foldlM (readRow pixelBuffer width height points.length) idxMap

/-! ## Density image -/

/-- The part of a `QImage` that `accumulateCells` uses: `width()`, `height()` and the total
accessor `pixel(x, y)`, which returns a `QRgb` value. -/
structure QImage where
  width : Nat
  height : Nat
  pixel : Nat → Nat → Nat

/-- Qt `qRed`: `(rgb >> 16) & 0xff`. -/
def qRed (rgb : Nat) : Nat := (rgb >>> 16) &&& 0xff

/-- Qt `qGreen`: `(rgb >> 8) & 0xff`. -/
def qGreen (rgb : Nat) : Nat := (rgb >>> 8) &&& 0xff

/-- Qt `qBlue`: `rgb & 0xff`. -/
def qBlue (rgb : Nat) : Nat := rgb &&& 0xff

/-- Qt `qGray(QRgb)`: `(r * 11 + g * 16 + b * 5) / 32` in integer arithmetic. -/
def qGray (rgb : Nat) : Nat := (qRed rgb * 11 + qGreen rgb * 16 + qBlue rgb * 5) / 32

/-- The value of `std::numeric_limits<float>::epsilon()`, `2 ^ (-23)`. -/
def floatEpsilon : ℚ := 1 / 2 ^ 23

/-- The weight of a gray level: `std::max(1.0f - gray / 255.0f, epsilon)`. -/
def grayWeight (gray : Nat) : ℚ := max (1 - (gray : ℚ) / 255) floatEpsilon

/-- The `densityVal` of pixel `(x, y)`: the weight of `qGray(density.pixel(x, y))`. -/
def densityVal (density : QImage) (x y : Nat) : ℚ := grayWeight (qGray (density.pixel x y))

/-! ## Accumulators -/

/-- The `struct Moments` of six raw moments. -/
@[ext] structure Moments where
  moment00 : ℚ
  moment10 : ℚ
  moment01 : ℚ
  moment11 : ℚ
  moment20 : ℚ
  moment02 : ℚ
  deriving DecidableEq

/-- The `struct LocalAccum`, with its default member initialisers. -/
@[ext] structure LocalAccum where
  area : Nat := 0
  sumDensity : ℚ := 0
  m : Moments := ⟨0, 0, 0, 0, 0, 0⟩
  deriving DecidableEq

/-- Modelled from the spec: the `struct VoronoiCell` of the header `voronoicell.h`, which
is not among the sources. The fields are the ones of the spec's `CellStatistics`
(`area: uint32`, `sumDensity: float`, `centroid: (float, float)`, `orientation: float`). -/
@[ext] structure VoronoiCell where
  centroid : ℚ × ℚ
  orientation : ℚ
  area : Nat
  sumDensity : ℚ
  deriving DecidableEq

/-- Modelled from the spec: a default-constructed `VoronoiCell`, the element value of
`std::vector<VoronoiCell>(n)`: every field is zero. -/
def VoronoiCell.default : VoronoiCell :=
  { centroid := (0, 0), orientation := 0, area := 0, sumDensity := 0 }

/-- A value-initialised `Moments`, the element value of `std::vector<Moments>(n)`. -/
def Moments.zero : Moments := ⟨0, 0, 0, 0, 0, 0⟩

/-- The product `a * b` of two `int` operands as the 32-bit machine computes it: the exact
product reduced to the two's complement range `[-2 ^ 31, 2 ^ 31)`. -/
def mulInt32 (a b : Int) : Int := (a * b + 2 ^ 31) % 2 ^ 32 - 2 ^ 31

/-- The six statements `acc.area++; acc.sumDensity += densityVal; acc.m.moment00 += ...`
of the pixel loop, for pixel `(x, y)` of weight `densityVal`. In `x * y * densityVal`,
`x * x * densityVal` and `y * y * densityVal` the first product is taken on `int` operands
(`mulInt32`) and converted to `float` afterwards; in `x * densityVal` and `y * densityVal`
the coordinate is converted first. -/
def accumPixel (acc : LocalAccum) (x y : Nat) (densityVal : ℚ) : LocalAccum :=
  { area := acc.area + 1
    sumDensity := acc.sumDensity + densityVal
    m :=
      { moment00 := acc.m.moment00 + densityVal
        moment10 := acc.m.moment10 + (x : ℚ) * densityVal
        moment01 := acc.m.moment01 + (y : ℚ) * densityVal
        moment11 := acc.m.moment11 + ((mulInt32 (x : Int) (y : Int) : Int) : ℚ) * densityVal
        moment20 := acc.m.moment20 + ((mulInt32 (x : Int) (x : Int) : Int) : ℚ) * densityVal
        moment02 := acc.m.moment02 + ((mulInt32 (y : Int) (y : Int) : Int) : ℚ) * densityVal } }

/-- A thread-local `std::unordered_map<uint32_t, LocalAccum>`: its entries, each key once. -/
abbrev LocalTable := List (Nat × LocalAccum)

/-- The access `LocalAccum& acc = local[index]` followed by an update `f` of `acc`: an absent
key is inserted with a default `LocalAccum` first. -/
def LocalTable.update (f : LocalAccum → LocalAccum) (index : Nat) : LocalTable → LocalTable
  | [] => [(index, f {})]
  | (k, acc) :: rest =>
    if k = index then (k, f acc) :: rest else (k, acc) :: LocalTable.update f index rest

/-- The inner loop `for (int y = 0; y < map.height; ++y)` for column `x`. -/
def accumColumn (map : IndexMap) (density : QImage) (loc : LocalTable) (x : Nat) :
    LocalTable :=
  (List.range map.height).foldl
    (fun loc y => LocalTable.update (fun acc => accumPixel acc x y (densityVal density x y))
      (map.get x y) loc) loc

/-- The work of one thread of the `omp for`: the columns `columns` assigned to it, accumulated
into its own, initially empty table. -/
def accumWorker (map : IndexMap) (density : QImage) (columns : List Nat) : LocalTable :=
  columns.foldl (accumColumn map density) []

/-- The two global vectors `cells` and `moments`. -/
structure Global where
  cells : List VoronoiCell
  moments : List Moments

/-- The initial vectors `std::vector<VoronoiCell>(map.count())` and
`std::vector<Moments>(map.count())`. -/
def Global.init (map : IndexMap) : Global :=
  { cells := List.replicate map.count VoronoiCell.default
    moments := List.replicate map.count Moments.zero }

/-- The body of the merge loop for one entry `[index, acc]` of a thread-local table:
`cells[index].area += acc.area`, `cells[index].sumDensity += acc.sumDensity` and the six
additions to `moments[index]`. -/
def mergeEntry (g : Global) (e : Nat × LocalAccum) : Global :=
  { cells := g.cells.modify
      (fun c => { c with area := c.area + e.2.area
                         sumDensity := c.sumDensity + e.2.sumDensity }) e.1
    moments := g.moments.modify
      (fun m =>
        { moment00 := m.moment00 + e.2.m.moment00
          moment10 := m.moment10 + e.2.m.moment10
          moment01 := m.moment01 + e.2.m.moment01
          moment11 := m.moment11 + e.2.m.moment11
          moment20 := m.moment20 + e.2.m.moment20
          moment02 := m.moment02 + e.2.m.moment02 }) e.1 }

/-- The critical section of one thread: `for (const auto& [index, acc] : local)`, the
entries taken in the order of the list. -/
def mergeLocal (g : Global) (loc : LocalTable) : Global := loc.foldl mergeEntry g

/-- The loop body of "compute cell quantities" for cell `i`, given `moments[i]`.
`atan2` stands for `std::atan2`. -/
def finalizeCell (atan2 : ℚ → ℚ → ℚ) (density : QImage) (cell : VoronoiCell) (mom : Moments) :
    VoronoiCell :=
  if cell.sumDensity ≤ 0 then cell
  else
    let m00 := mom.moment00
    let m10 := mom.moment10
    let m01 := mom.moment01
    let m11 := mom.moment11
    let m20 := mom.moment20
    let m02 := mom.moment02
    let cx := m10 / m00
    let cy := m01 / m00
    let x := m20 / m00 - cx * cx
    let y := 2 * (m11 / m00 - cx * cy)
    let z := m02 / m00 - cy * cy
    { cell with
      orientation := atan2 y (x - z) / 2
      centroid := ((cx + 1 / 2) / (density.width : ℚ), (cy + 1 / 2) / (density.height : ℚ)) }

/-- The second half of `accumulateCells`: the thread-local tables `tables` are merged into
the global vectors one after the other, then every cell is finalised. -/
def accumulateFromTables (atan2 : ℚ → ℚ → ℚ) (map : IndexMap) (density : QImage)
    (tables : List LocalTable) : List VoronoiCell :=
  let g := tables.foldl mergeLocal (Global.init map)
  List.zipWith (finalizeCell atan2 density) g.cells g.moments

/-- The function `accumulateCells` run by a team of threads: `schedule` lists, in the order
in which the threads enter the critical section, the columns that the `omp for` gives to
each thread. The iteration `for (const auto& [index, acc] : local)` takes the entries of a
table in the order of their insertion; `accumulateFromTables` covers every other order. -/
def accumulateCells (atan2 : ℚ → ℚ → ℚ) (map : IndexMap) (density : QImage)
    (schedule : List (List Nat)) : List VoronoiCell :=
  accumulateFromTables atan2 map density (schedule.map (accumWorker map density))

/-- The schedule of a single thread that visits the columns `0, 1, ..., width - 1` in order. -/
def sequentialSchedule (map : IndexMap) : List (List Nat) := [List.range map.width]

/-- A schedule is valid when every column `0 .. width - 1` is given to exactly one thread,
exactly once. -/
def IsSchedule (map : IndexMap) (schedule : List (List Nat)) : Prop :=
  schedule.flatten.Perm (List.range map.width)

instance (map : IndexMap) (schedule : List (List Nat)) : Decidable (IsSchedule map schedule) := by
  unfold IsSchedule; infer_instance

/-! ## Accumulators as a commutative monoid

The accumulation statements only ever add to a component, so an accumulator is a sum of
per-pixel terms. The instances below are the componentwise sum used to state this. -/

instance : Zero Moments := ⟨Moments.zero⟩

instance : Add Moments :=
  ⟨fun a b =>
    { moment00 := a.moment00 + b.moment00
      moment10 := a.moment10 + b.moment10
      moment01 := a.moment01 + b.moment01
      moment11 := a.moment11 + b.moment11
      moment20 := a.moment20 + b.moment20
      moment02 := a.moment02 + b.moment02 }⟩

instance : AddCommMonoid Moments where
  add_assoc a b c := by
    ext <;> exact add_assoc _ _ _
  zero_add a := by
    ext <;> exact zero_add _
  add_zero a := by
    ext <;> exact add_zero _
  add_comm a b := by
    ext <;> exact add_comm _ _
  nsmul := nsmulRec

instance : Zero LocalAccum := ⟨{}⟩

instance : Add LocalAccum :=
  ⟨fun a b =>
    { area := a.area + b.area
      sumDensity := a.sumDensity + b.sumDensity
      m := a.m + b.m }⟩

instance : AddCommMonoid LocalAccum where
  add_assoc a b c := by
    ext1
    · exact add_assoc _ _ _
    · exact add_assoc _ _ _
    · exact add_assoc _ _ _
  zero_add a := by
    ext1
    · exact zero_add _
    · exact zero_add _
    · exact zero_add a.m
  add_zero a := by
    ext1
    · exact add_zero _
    · exact add_zero _
    · exact add_zero a.m
  add_comm a b := by
    ext1
    · exact add_comm _ _
    · exact add_comm _ _
    · exact add_comm _ _
  nsmul := nsmulRec

/-- The term that pixel `(x, y)` adds to the accumulator of its cell. -/
def pixelTerm (density : QImage) (x y : Nat) : LocalAccum :=
  accumPixel {} x y (densityVal density x y)

/-- The sum of the terms of all pixels of the map that carry index `i`, columns outermost. -/
def cellTotal (map : IndexMap) (density : QImage) (i : Nat) : LocalAccum :=
  ((List.range map.width).map (fun x =>
    ((List.range map.height).map (fun y =>
      if map.get x y = i then pixelTerm density x y else 0)).sum)).sum

/-- The entry of a thread-local table for key `i`; a default `LocalAccum` when absent. -/
def LocalTable.find (t : LocalTable) (i : Nat) : LocalAccum :=
  match t with
  | [] => {}
  | (k, acc) :: rest => if k = i then acc else LocalTable.find rest i

/-- The accumulated values the global vectors hold for cell `i`. -/
def Global.acc (g : Global) (i : Nat) : LocalAccum :=
  { area := (g.cells.getD i VoronoiCell.default).area
    sumDensity := (g.cells.getD i VoronoiCell.default).sumDensity
    m := g.moments.getD i Moments.zero }

/-- The number of pixels of the map that carry index `i`. -/
def pixelCount (map : IndexMap) (i : Nat) : Nat :=
  ((Finset.range map.width ×ˢ Finset.range map.height).filter
    (fun p => map.get p.1 p.2 = i)).card

/-- The density-weighted raw moment of order `(p, q)` of the pixels that carry index `i`. -/
def rawMoment (map : IndexMap) (density : QImage) (i p q : Nat) : ℚ :=
  ∑ x in Finset.range map.width, ∑ y in Finset.range map.height,
    if map.get x y = i then (x : ℚ) ^ p * (y : ℚ) ^ q * densityVal density x y else 0

/-- The sum of the entries of key `i` over all thread-local tables. -/
def tablesTotal (tables : List LocalTable) (i : Nat) : LocalAccum :=
  (tables.map (fun t => (t.map (fun e => if e.1 = i then e.2 else 0)).sum)).sum

/-- The cell that the merge leaves for an accumulated total, before finalisation. -/
def cellOfTotal (t : LocalAccum) : VoronoiCell :=
  { VoronoiCell.default with area := t.area, sumDensity := t.sumDensity }

/-- The pixel-space centroid abscissa `m10 / m00` of cell `i`, from the raw moments. -/
def centroidX (map : IndexMap) (density : QImage) (i : Nat) : ℚ :=
  rawMoment map density i 1 0 / rawMoment map density i 0 0

/-- The pixel-space centroid ordinate `m01 / m00` of cell `i`, from the raw moments. -/
def centroidY (map : IndexMap) (density : QImage) (i : Nat) : ℚ :=
  rawMoment map density i 0 1 / rawMoment map density i 0 0

/-- A `2 x 2` index map with two cells: pixel `(0, 0)` belongs to cell `0`, the other three
pixels to cell `1`. -/
def exampleMap : IndexMap := ⟨2, 2, 2, [0, 1, 1, 1]⟩

/-- A `2 x 2` density image, black everywhere. -/
def exampleDensity : QImage := ⟨2, 2, fun _ _ => 0⟩

/-- A `2 x 2` index map with three declared cells, of which cell `2` owns no pixel. -/
def sparseMap : IndexMap := ⟨2, 2, 3, [0, 1, 1, 1]⟩

/-- A `2 x 2` index map of a single cell. -/
def singleMap : IndexMap := ⟨2, 2, 1, [0, 0, 0, 0]⟩

/-- A `1 x 1` index map of a single cell. -/
def unitMap : IndexMap := ⟨1, 1, 1, [0]⟩

/-- A `2 x 2` density image for `unitMap`: the sizes of the two disagree. -/
def wideDensity : QImage := ⟨2, 2, fun _ _ => 0⟩

/-! ## Concrete inputs with many sites -/

/-- A site sequence of `2 ^ 24 + 1` sites, all at the origin. -/
def manySites : List QVector2D := List.replicate (2 ^ 24 + 1) ⟨0, 0⟩

/-- A site sequence of `2 ^ 24` sites, all at the origin. -/
def fullSites : List QVector2D := List.replicate (2 ^ 24) ⟨0, 0⟩

/-! ## A canvas wider than `46341` pixels -/

/-- The offsets `y * width + x` into `m_data` that the calls `idxMap.set(x, y, index)` of the
read-back loop write, in the order of the loop: `y` outermost, `x` innermost. -/
def writtenOffsets (width height : Nat) : List Nat :=
  (List.range height).flatMap (fun y => (List.range width).map (fun x => y * width + x))

/-- A `2 x 2` read-back buffer: bottom row `0, 1`, top row `1, 0` (each index in the blue
byte). -/
def exampleBuffer : List Nat := [0, 0, 0, 0, 0, 1, 0, 0, 1, 0, 0, 0]

/-! ## Cone tessellation -/

/-- The function `calcNumConeSlices(radius, maxError)`:
`alpha = 2.0f * std::acos((radius - maxError) / radius)` and the result
`static_cast<uint>(2 * M_PIf32 / alpha + 0.5f)`, a conversion that truncates its non-negative
operand. The number type is any ordered field with a floor, `acos` stands for `std::acos`
and `pi` for `M_PIf32`: over `ℚ` the function can be run, over `ℝ` with `Real.arccos` and
`Real.pi` it is the computation read in exact arithmetic. -/
def calcNumConeSlices {α : Type} [LinearOrderedField α] [FloorRing α] (acos : α → α) (pi : α)
    (radius maxError : α) : Nat :=
  let alpha := 2 * acos ((radius - maxError) / radius)
  ⌊2 * pi / alpha + 1 / 2⌋₊

/-- The first three statements of `VoronoiDiagram::createConeDrawingData(size)`:
`radius = std::sqrt(2.0f)`, `maxError = 1.0f / max(size.width(), size.height())` and
`numConeSlices = calcNumConeSlices(radius, maxError)`. `sqrt` stands for `std::sqrt`. -/
def numConeSlices {α : Type} [LinearOrderedField α] [FloorRing α] (sqrt acos : α → α) (pi : α)
    (width height : Nat) : Nat :=
  let radius := sqrt 2
  let maxError := 1 / (((if width > height then width else height : Nat) : α))
  calcNumConeSlices acos pi radius maxError

/-! # Theorems -/

/-! ## Arithmetic of the encoder -/

open CellEncoder

theorem and_0xff (x : Nat) : x &&& 0xff = x % 256 := by
  have h := Nat.and_pow_two_sub_one_eq_mod x 8
  simpa using h

theorem decode_of_bytes (r g b : Nat) (hr : r < 256) (hg : g < 256) (hb : b < 256) :
    decode r g b = r * 65536 + g * 256 + b := by
  unfold decode
  have h1 : (r <<< 16) % 2 ^ 32 = 2 ^ 16 * r := by
    rw [Nat.shiftLeft_eq, Nat.mod_eq_of_lt (by omega)]; ring
  have h2 : (g <<< 8) % 2 ^ 32 = 2 ^ 8 * g := by
    rw [Nat.shiftLeft_eq, Nat.mod_eq_of_lt (by omega)]; ring
  rw [h1, h2, Nat.zero_or, ← Nat.mul_add_lt_is_or (by omega : 2 ^ 8 * g < 2 ^ 16)]
  have e1 : 2 ^ 16 * r + 2 ^ 8 * g = 2 ^ 8 * (2 ^ 8 * r + g) := by ring
  rw [e1, ← Nat.mul_add_lt_is_or (by omega : b < 2 ^ 8)]
  ring

theorem encodeChannels_eq (i : Nat) :
    encodeChannels i = ((i / 65536) % 256, (i / 256) % 256, i % 256) := by
  simp only [encodeChannels, and_0xff, Nat.shiftRight_eq_div_pow]
  norm_num

theorem encode_eq (i : Nat) :
    encode i = (((encodeChannels i).1 : ℚ) / 255, ((encodeChannels i).2.1 : ℚ) / 255,
      ((encodeChannels i).2.2 : ℚ) / 255) := rfl

theorem decode_encodeChannels (i : Nat) :
    decode (encodeChannels i).1 (encodeChannels i).2.1 (encodeChannels i).2.2 = i % 2 ^ 24 := by
  rw [encodeChannels_eq]
  simp only
  rw [decode_of_bytes _ _ _ (Nat.mod_lt _ (by norm_num)) (Nat.mod_lt _ (by norm_num))
    (Nat.mod_lt _ (by norm_num))]
  omega

theorem encodeChannels_of_encode_eq {i j : Nat} (h : encode i = encode j) :
    encodeChannels i = encodeChannels j := by
  rw [encode_eq, encode_eq] at h
  simp only [Prod.mk.injEq] at h
  obtain ⟨h1, h2, h3⟩ := h
  have c : ∀ a b : Nat, (a : ℚ) / 255 = (b : ℚ) / 255 → a = b := by
    intro a b hab
    have h255 : (255 : ℚ) ≠ 0 := by norm_num
    have := (div_left_inj' h255).mp hab
    exact_mod_cast this
  exact Prod.ext (c _ _ h1) (Prod.ext (c _ _ h2) (c _ _ h3))

theorem encode_eq_iff (i j : Nat) : encode i = encode j ↔ i % 2 ^ 24 = j % 2 ^ 24 := by
  constructor
  · intro h
    have hc := encodeChannels_of_encode_eq h
    rw [← decode_encodeChannels i, ← decode_encodeChannels j, hc]
  · intro h
    rw [encode_eq, encode_eq, encodeChannels_eq, encodeChannels_eq]
    have a1 : i / 65536 % 256 = j / 65536 % 256 := by omega
    have a2 : i / 256 % 256 = j / 256 % 256 := by omega
    have a3 : i % 256 = j % 256 := by omega
    simp only [a1, a2, a3]

/-! ## The read-back loop -/

theorem foldlM_ok_of_forall {α β ε : Type} (f : β → α → Except ε β) (g : β → α → β)
    (l : List α) (h : ∀ b a, a ∈ l → f b a = .ok (g b a)) (b : β) :
    l.foldlM f b = .ok (l.foldl g b) := by
  induction l generalizing b with
  | nil => rfl
  | cons a l ih =>
    rw [List.foldlM_cons, h b a (List.mem_cons_self a l)]
    exact ih (fun b x hx => h b x (List.mem_cons_of_mem a hx)) (g b a)

theorem getD_lt_of_forall (l : List Nat) (i : Nat) (h : ∀ b ∈ l, b < 256) :
    l.getD i 0 < 256 := by
  rw [List.getD_eq_getElem?_getD]
  cases hi : l[i]? with
  | none => simp
  | some v => simpa using h v (List.getElem?_mem hi)

theorem decodeAt_le (pixelBuffer : List Nat) (width height x y : Nat)
    (h : ∀ b ∈ pixelBuffer, b < 256) : decodeAt pixelBuffer width height x y ≤ 2 ^ 24 - 1 := by
  unfold decodeAt
  simp only
  have h1 := getD_lt_of_forall pixelBuffer (((height - 1 - y) * width + x) * 3) h
  have h2 := getD_lt_of_forall pixelBuffer (((height - 1 - y) * width + x) * 3 + 1) h
  have h3 := getD_lt_of_forall pixelBuffer (((height - 1 - y) * width + x) * 3 + 2) h
  rw [decode_of_bytes _ _ _ h1 h2 h3]
  omega

theorem readRow_ok (pixelBuffer : List Nat) (width height numPoints y : Nat)
    (h : ∀ x, x < width → decodeAt pixelBuffer width height x y ≤ numPoints) (m : IndexMap) :
    readRow pixelBuffer width height numPoints m y =
      .ok ((List.range width).foldl
        (fun m x => m.set x y (decodeAt pixelBuffer width height x y)) m) := by
  unfold readRow
  apply foldlM_ok_of_forall
  intro b a ha
  have := h a (List.mem_range.mp ha)
  simp [readPixel, this]

theorem calculate_ok (points : List QVector2D) (width height : Nat) (pixelBuffer : List Nat)
    (hne : points ≠ [])
    (h : ∀ x y, x < width → y < height →
      decodeAt pixelBuffer width height x y ≤ points.length) :
    calculate points width height pixelBuffer =
      .ok ((List.range height).foldl
        (fun m y => (List.range width).foldl
          (fun m x => m.set x y (decodeAt pixelBuffer width height x y)) m)
        (IndexMap.new width height points.length)) := by
  unfold calculate
  have he : points.isEmpty = false := by
    cases points with
    | nil => exact absurd rfl hne
    | cons a l => rfl
  simp only [he, Bool.false_eq_true, if_false]
  apply foldlM_ok_of_forall
  intro b a ha
  exact readRow_ok pixelBuffer width height points.length a
    (fun x hx => h x a hx (List.mem_range.mp ha)) b

theorem calculateColors_getElem? (points : List QVector2D) (i : Nat) (hi : i < points.length) :
    (calculateColors points)[i]? = some (encode (i % 2 ^ 32)) := by
  unfold calculateColors
  rw [List.getElem?_map, List.getElem?_range hi]
  rfl

/-! ## Claims about the encoder and the read-back -/

/-- Claim C1. For every index `i < 2 ^ 24`, decoding the three channels that `encode` computes for
`i` gives back `i`; consequently no other index below `2 ^ 24` has the channels, or the
colour, of `i`. -/
theorem encode_decode_roundtrip (i : Nat) (hi : i < 2 ^ 24) :
    decode (encodeChannels i).1 (encodeChannels i).2.1 (encodeChannels i).2.2 = i ∧
    (∀ j, j < 2 ^ 24 → encodeChannels j = encodeChannels i → j = i) ∧
    (∀ j, j < 2 ^ 24 → encode j = encode i → j = i) := by
  have key : ∀ k, k < 2 ^ 24 →
      decode (encodeChannels k).1 (encodeChannels k).2.1 (encodeChannels k).2.2 = k := by
    intro k hk
    rw [decode_encodeChannels, Nat.mod_eq_of_lt hk]
  refine ⟨key i hi, ?_, ?_⟩
  · intro j hj h
    rw [← key j hj, h, key i hi]
  · intro j hj h
    rw [← key j hj, encodeChannels_of_encode_eq h, key i hi]

/-- The round trip of claim C1 at the index `70000`. -/
theorem encode_decode_roundtrip_witness :
    70000 < 2 ^ 24 ∧
    decode (encodeChannels 70000).1 (encodeChannels 70000).2.1 (encodeChannels 70000).2.2
      = 70000 :=
  ⟨by decide, (encode_decode_roundtrip 70000 (by decide)).1⟩

/-- Claim C2, evaluated at a failing input. With one site and a `1 x 1` frame buffer holding the
bytes `0, 0, 1`, the decoded index is `1`, the assertion `index <= points.size()` lets it
pass, and the returned map stores `1 = count()` at pixel `(0, 0)`. -/
theorem calculate_stores_count :
    calculate [⟨0, 0⟩] 1 1 [0, 0, 1] = .ok ⟨1, 1, 1, [1]⟩ ∧
    (IndexMap.mk 1 1 1 [1]).get 0 0 = (IndexMap.mk 1 1 1 [1]).count := by
  constructor <;> rfl

/-- Claim C3, refuted at `2 ^ 24 + 1` sites: `calculate` returns a map, and the ordinals `0` and
`2 ^ 24` are given the same colour. -/
theorem calculate_overflow_counterexample :
    2 ^ 24 - 1 < manySites.length ∧
    (∃ m, calculate manySites 1 1 [0, 0, 0] = .ok m) ∧
    (calculateColors manySites)[0]? = (calculateColors manySites)[2 ^ 24]? ∧
    (calculateColors manySites)[0]? ≠ none := by
  have hlen : manySites.length = 2 ^ 24 + 1 := List.length_replicate _ _
  have hne : manySites ≠ [] := by
    intro h; rw [h] at hlen; simp at hlen
  refine ⟨by rw [hlen]; norm_num, ?_, ?_, ?_⟩
  · refine ⟨_, calculate_ok manySites 1 1 [0, 0, 0] hne ?_⟩
    intro x y hx hy
    have hb : ∀ b ∈ [0, 0, 0], b < 256 := by simp
    have := decodeAt_le [0, 0, 0] 1 1 x y hb
    rw [hlen]; omega
  · rw [calculateColors_getElem? _ 0 (by rw [hlen]; norm_num),
      calculateColors_getElem? _ (2 ^ 24) (by rw [hlen]; norm_num)]
    exact congrArg some ((encode_eq_iff _ _).mpr (by norm_num))
  · rw [calculateColors_getElem? _ 0 (by rw [hlen]; norm_num)]
    exact Option.some_ne_none _

/-- Claim C3, amended. For more than `2 ^ 24 - 1` sites `calculate` has no overflow failure: for
every read-back buffer of bytes it returns an index map, and two ordinals are given the same
colour exactly when they agree modulo `2 ^ 24`. -/
theorem calculate_beyond_encoding_limit (points : List QVector2D) (width height : Nat)
    (pixelBuffer : List Nat) (hN : 2 ^ 24 - 1 < points.length)
    (hbytes : ∀ b ∈ pixelBuffer, b < 256) :
    (∃ m, calculate points width height pixelBuffer = .ok m) ∧
    ∀ i j, i < points.length → j < points.length →
      ((calculateColors points)[i]? = (calculateColors points)[j]? ↔
        i % 2 ^ 24 = j % 2 ^ 24) := by
  have hne : points ≠ [] := by
    intro h; rw [h] at hN; simp at hN
  constructor
  · refine ⟨_, calculate_ok points width height pixelBuffer hne ?_⟩
    intro x y hx hy
    have := decodeAt_le pixelBuffer width height x y hbytes
    omega
  · intro i j hi hj
    rw [calculateColors_getElem? _ i hi, calculateColors_getElem? _ j hj, Option.some_inj,
      encode_eq_iff]
    omega

/-- The amended claim C3 at `2 ^ 24` sites and a `1 x 1` frame buffer. -/
theorem calculate_beyond_encoding_limit_witness :
    (∃ m, calculate fullSites 1 1 [0, 0, 0] = .ok m) ∧
    ∀ i j, i < fullSites.length → j < fullSites.length →
      ((calculateColors fullSites)[i]? = (calculateColors fullSites)[j]? ↔
        i % 2 ^ 24 = j % 2 ^ 24) :=
  calculate_beyond_encoding_limit fullSites 1 1 [0, 0, 0]
    (by rw [fullSites, List.length_replicate]; norm_num) (by simp)

/-- Claim C9, refuted for one site: the clear colour decodes to `16777215`, not to `1`. -/
theorem white_is_not_count_counterexample :
    decode clearColorBytes.1 clearColorBytes.2.1 clearColorBytes.2.2 ≠
      ([⟨0, 0⟩] : List QVector2D).length := by
  decide

/-- Claim C9, amended. For every non-empty site sequence of `N <= 2 ^ 24 - 1` sites the clear
colour decodes to `2 ^ 24 - 1`, whatever `N` is; this is never a valid index below `N`, and
it equals `N` only for `N = 2 ^ 24 - 1`. -/
theorem clearColor_decode (points : List QVector2D) (hne : points ≠ [])
    (hN : points.length ≤ 2 ^ 24 - 1) :
    decode clearColorBytes.1 clearColorBytes.2.1 clearColorBytes.2.2 = 2 ^ 24 - 1 ∧
    ¬ decode clearColorBytes.1 clearColorBytes.2.1 clearColorBytes.2.2 < points.length ∧
    (decode clearColorBytes.1 clearColorBytes.2.1 clearColorBytes.2.2 = points.length ↔
      points.length = 2 ^ 24 - 1) := by
  have h : decode clearColorBytes.1 clearColorBytes.2.1 clearColorBytes.2.2 = 2 ^ 24 - 1 := by
    decide
  rw [h]
  refine ⟨rfl, by omega, by omega⟩

/-- The amended claim C9 at two sites. -/
theorem clearColor_decode_witness :
    decode clearColorBytes.1 clearColorBytes.2.1 clearColorBytes.2.2 = 2 ^ 24 - 1 ∧
    ¬ decode clearColorBytes.1 clearColorBytes.2.1 clearColorBytes.2.2 <
      ([⟨0, 0⟩, ⟨1, 1⟩] : List QVector2D).length ∧
    (decode clearColorBytes.1 clearColorBytes.2.1 clearColorBytes.2.2 =
        ([⟨0, 0⟩, ⟨1, 1⟩] : List QVector2D).length ↔
      ([⟨0, 0⟩, ⟨1, 1⟩] : List QVector2D).length = 2 ^ 24 - 1) :=
  clearColor_decode [⟨0, 0⟩, ⟨1, 1⟩] (by simp) (by simp)

/-! ## Accumulation: thread-local tables -/

theorem LocalAccum.zero_def : (0 : LocalAccum) = {} := rfl

@[simp] theorem LocalAccum.add_area (a b : LocalAccum) : (a + b).area = a.area + b.area := rfl

@[simp] theorem LocalAccum.add_sumDensity (a b : LocalAccum) :
    (a + b).sumDensity = a.sumDensity + b.sumDensity := rfl

@[simp] theorem LocalAccum.add_m (a b : LocalAccum) : (a + b).m = a.m + b.m := rfl

@[simp] theorem LocalAccum.zero_area : (0 : LocalAccum).area = 0 := rfl

@[simp] theorem LocalAccum.zero_sumDensity : (0 : LocalAccum).sumDensity = 0 := rfl

@[simp] theorem LocalAccum.zero_m : (0 : LocalAccum).m = 0 := rfl

@[simp] theorem Moments.add_moment00 (a b : Moments) :
    (a + b).moment00 = a.moment00 + b.moment00 := rfl

@[simp] theorem Moments.add_moment10 (a b : Moments) :
    (a + b).moment10 = a.moment10 + b.moment10 := rfl

@[simp] theorem Moments.add_moment01 (a b : Moments) :
    (a + b).moment01 = a.moment01 + b.moment01 := rfl

@[simp] theorem Moments.add_moment11 (a b : Moments) :
    (a + b).moment11 = a.moment11 + b.moment11 := rfl

@[simp] theorem Moments.add_moment20 (a b : Moments) :
    (a + b).moment20 = a.moment20 + b.moment20 := rfl

@[simp] theorem Moments.add_moment02 (a b : Moments) :
    (a + b).moment02 = a.moment02 + b.moment02 := rfl

@[simp] theorem Moments.zero_moment00 : (0 : Moments).moment00 = 0 := rfl

@[simp] theorem Moments.zero_moment10 : (0 : Moments).moment10 = 0 := rfl

@[simp] theorem Moments.zero_moment01 : (0 : Moments).moment01 = 0 := rfl

@[simp] theorem Moments.zero_moment11 : (0 : Moments).moment11 = 0 := rfl

@[simp] theorem Moments.zero_moment20 : (0 : Moments).moment20 = 0 := rfl

@[simp] theorem Moments.zero_moment02 : (0 : Moments).moment02 = 0 := rfl

/-- One pass of the pixel statements adds the pixel's term to the accumulator. -/
theorem accumPixel_eq_add (acc : LocalAccum) (x y : Nat) (d : ℚ) :
    accumPixel acc x y d = acc + accumPixel {} x y d := by
  ext <;> simp [accumPixel]

theorem LocalTable.find_nil (i : Nat) : LocalTable.find [] i = 0 := rfl

theorem LocalTable.find_update (f : LocalAccum → LocalAccum) (k i : Nat) (t : LocalTable) :
    (LocalTable.update f k t).find i = if k = i then f (t.find i) else t.find i := by
  induction t with
  | nil =>
    simp only [LocalTable.update, LocalTable.find]
  | cons e rest ih =>
    obtain ⟨k', a⟩ := e
    simp only [LocalTable.update]
    by_cases hk : k' = k
    · subst hk
      by_cases hi : k' = i
      · simp [LocalTable.find, hi]
      · simp [LocalTable.find, hi]
    · by_cases hi : k' = i
      · have hki : k ≠ i := fun h => hk (hi.trans h.symm)
        rw [if_neg hk, if_neg hki]
        simp [LocalTable.find, hi]
      · rw [if_neg hk]
        simp [LocalTable.find, hi, ih]

/-- The term that column `x` adds to the accumulator of cell `i`. -/
theorem find_accumColumn_aux (map : IndexMap) (density : QImage) (x i : Nat) (ys : List Nat)
    (loc : LocalTable) :
    (ys.foldl
      (fun loc y => LocalTable.update (fun acc => accumPixel acc x y (densityVal density x y))
        (map.get x y) loc) loc).find i =
    loc.find i + (ys.map (fun y => if map.get x y = i then pixelTerm density x y else 0)).sum := by
  induction ys generalizing loc with
  | nil => simp
  | cons y ys ih =>
    rw [List.foldl_cons, ih, LocalTable.find_update, List.map_cons, List.sum_cons, ← add_assoc]
    congr 1
    by_cases h : map.get x y = i
    · simp only [h, if_true]
      rw [accumPixel_eq_add]; rfl
    · simp only [h, if_false, add_zero]

theorem find_accumColumn (map : IndexMap) (density : QImage) (x i : Nat) (loc : LocalTable) :
    (accumColumn map density loc x).find i =
    loc.find i + ((List.range map.height).map
      (fun y => if map.get x y = i then pixelTerm density x y else 0)).sum :=
  find_accumColumn_aux map density x i _ loc

theorem find_foldl_accumColumn (map : IndexMap) (density : QImage) (i : Nat) (cols : List Nat)
    (loc : LocalTable) :
    (cols.foldl (accumColumn map density) loc).find i =
    loc.find i + (cols.map (fun x => ((List.range map.height).map
      (fun y => if map.get x y = i then pixelTerm density x y else 0)).sum)).sum := by
  induction cols generalizing loc with
  | nil => simp
  | cons x cols ih =>
    rw [List.foldl_cons, ih, find_accumColumn, List.map_cons, List.sum_cons, add_assoc]

theorem find_accumWorker (map : IndexMap) (density : QImage) (i : Nat) (cols : List Nat) :
    (accumWorker map density cols).find i =
    (cols.map (fun x => ((List.range map.height).map
      (fun y => if map.get x y = i then pixelTerm density x y else 0)).sum)).sum := by
  unfold accumWorker
  rw [find_foldl_accumColumn, LocalTable.find_nil, zero_add]

/-! ### Keys of a table occur once -/

theorem LocalTable.keys_update (f : LocalAccum → LocalAccum) (k : Nat) (t : LocalTable) :
    (LocalTable.update f k t).map Prod.fst =
      if k ∈ t.map Prod.fst then t.map Prod.fst else t.map Prod.fst ++ [k] := by
  induction t with
  | nil => simp [LocalTable.update]
  | cons e rest ih =>
    obtain ⟨k', a⟩ := e
    simp only [LocalTable.update]
    by_cases hk : k' = k
    · simp [hk]
    · have hk' : ¬ k = k' := fun h => hk h.symm
      simp only [hk, if_false, List.map_cons, ih, List.mem_cons, hk', false_or]
      split <;> simp

theorem LocalTable.nodup_update (f : LocalAccum → LocalAccum) (k : Nat) (t : LocalTable)
    (h : (t.map Prod.fst).Nodup) : ((LocalTable.update f k t).map Prod.fst).Nodup := by
  rw [LocalTable.keys_update]
  split
  · exact h
  · rename_i hk
    rw [List.nodup_append]
    refine ⟨h, List.nodup_singleton k, ?_⟩
    intro a ha hb
    rw [List.mem_singleton] at hb
    exact hk (hb ▸ ha)

theorem nodup_accumColumn (map : IndexMap) (density : QImage) (x : Nat) (loc : LocalTable)
    (h : (loc.map Prod.fst).Nodup) : ((accumColumn map density loc x).map Prod.fst).Nodup := by
  unfold accumColumn
  generalize List.range map.height = ys
  induction ys generalizing loc with
  | nil => exact h
  | cons y ys ih =>
    rw [List.foldl_cons]
    exact ih _ (LocalTable.nodup_update _ _ _ h)

theorem nodup_accumWorker (map : IndexMap) (density : QImage) (cols : List Nat) :
    ((accumWorker map density cols).map Prod.fst).Nodup := by
  unfold accumWorker
  have : ∀ loc : LocalTable, (loc.map Prod.fst).Nodup →
      ((cols.foldl (accumColumn map density) loc).map Prod.fst).Nodup := by
    induction cols with
    | nil => intro loc h; exact h
    | cons x cols ih =>
      intro loc h
      rw [List.foldl_cons]
      exact ih _ (nodup_accumColumn map density x loc h)
  exact this [] List.nodup_nil

theorem LocalTable.find_of_not_mem (t : LocalTable) (i : Nat) (h : i ∉ t.map Prod.fst) :
    t.find i = 0 := by
  induction t with
  | nil => rfl
  | cons e rest ih =>
    obtain ⟨k, a⟩ := e
    simp only [List.map_cons, List.mem_cons, not_or] at h
    have hk : ¬ k = i := fun hh => h.1 hh.symm
    simp only [LocalTable.find, hk, if_false]
    exact ih h.2

/-- The entries of key `i` of a table without repeated keys add up to the looked-up entry. -/
theorem LocalTable.sum_entries (t : LocalTable) (i : Nat) (h : (t.map Prod.fst).Nodup) :
    (t.map (fun e => if e.1 = i then e.2 else 0)).sum = t.find i := by
  induction t with
  | nil => rfl
  | cons e rest ih =>
    obtain ⟨k, a⟩ := e
    rw [List.map_cons, List.nodup_cons] at h
    rw [List.map_cons, List.sum_cons, ih h.2]
    by_cases hk : k = i
    · subst hk
      simp only [if_true, LocalTable.find]
      rw [LocalTable.find_of_not_mem rest k h.1, add_zero]
    · simp only [hk, if_false, LocalTable.find, zero_add]

/-! ## Accumulation: the merge into the global vectors -/

theorem mergeEntry_cells_length (g : Global) (e : Nat × LocalAccum) :
    (mergeEntry g e).cells.length = g.cells.length := by
  simp [mergeEntry]

theorem mergeEntry_moments_length (g : Global) (e : Nat × LocalAccum) :
    (mergeEntry g e).moments.length = g.moments.length := by
  simp [mergeEntry]

theorem mergeEntry_centroid (g : Global) (e : Nat × LocalAccum) (i : Nat)
    (hc : i < g.cells.length) :
    ((mergeEntry g e).cells.getD i VoronoiCell.default).centroid =
      (g.cells.getD i VoronoiCell.default).centroid ∧
    ((mergeEntry g e).cells.getD i VoronoiCell.default).orientation =
      (g.cells.getD i VoronoiCell.default).orientation := by
  simp only [mergeEntry, List.getD_eq_getElem?_getD, List.getElem?_modify,
    List.getElem?_eq_getElem hc, Option.map_eq_map, Option.map_some', Option.getD_some]
  split <;> simp

theorem mergeEntry_acc (g : Global) (e : Nat × LocalAccum) (i : Nat)
    (hc : i < g.cells.length) (hm : i < g.moments.length) :
    (mergeEntry g e).acc i = g.acc i + (if e.1 = i then e.2 else 0) := by
  simp only [Global.acc, mergeEntry, List.getD_eq_getElem?_getD, List.getElem?_modify,
    List.getElem?_eq_getElem hc, List.getElem?_eq_getElem hm, Option.map_eq_map,
    Option.map_some', Option.getD_some]
  by_cases h : e.1 = i
  · simp only [h, if_true]
    ext <;> simp
  · simp only [h, if_false]
    ext <;> simp

/-- What a sequence of merged entries leaves in the global vectors for cell `i`. -/
theorem mergeLocal_spec (t : LocalTable) (g : Global) (i : Nat)
    (hc : i < g.cells.length) (hm : i < g.moments.length) :
    (mergeLocal g t).cells.length = g.cells.length ∧
    (mergeLocal g t).moments.length = g.moments.length ∧
    ((mergeLocal g t).cells.getD i VoronoiCell.default).centroid =
      (g.cells.getD i VoronoiCell.default).centroid ∧
    ((mergeLocal g t).cells.getD i VoronoiCell.default).orientation =
      (g.cells.getD i VoronoiCell.default).orientation ∧
    (mergeLocal g t).acc i = g.acc i + (t.map (fun e => if e.1 = i then e.2 else 0)).sum := by
  unfold mergeLocal
  induction t generalizing g with
  | nil => simp
  | cons e t ih =>
    rw [List.foldl_cons]
    have hc' : i < (mergeEntry g e).cells.length := by rw [mergeEntry_cells_length]; exact hc
    have hm' : i < (mergeEntry g e).moments.length := by
      rw [mergeEntry_moments_length]; exact hm
    obtain ⟨h1, h2, h3, h4, h5⟩ := ih (mergeEntry g e) hc' hm'
    refine ⟨?_, ?_, ?_, ?_, ?_⟩
    · rw [h1, mergeEntry_cells_length]
    · rw [h2, mergeEntry_moments_length]
    · rw [h3, (mergeEntry_centroid g e i hc).1]
    · rw [h4, (mergeEntry_centroid g e i hc).2]
    · rw [h5, mergeEntry_acc g e i hc hm, List.map_cons, List.sum_cons, add_assoc]

theorem mergeTables_spec (tables : List LocalTable) (g : Global) (i : Nat)
    (hc : i < g.cells.length) (hm : i < g.moments.length) :
    (tables.foldl mergeLocal g).cells.length = g.cells.length ∧
    (tables.foldl mergeLocal g).moments.length = g.moments.length ∧
    ((tables.foldl mergeLocal g).cells.getD i VoronoiCell.default).centroid =
      (g.cells.getD i VoronoiCell.default).centroid ∧
    ((tables.foldl mergeLocal g).cells.getD i VoronoiCell.default).orientation =
      (g.cells.getD i VoronoiCell.default).orientation ∧
    (tables.foldl mergeLocal g).acc i = g.acc i +
      tablesTotal tables i := by
  induction tables generalizing g with
  | nil => simp [tablesTotal]
  | cons t tables ih =>
    rw [List.foldl_cons]
    obtain ⟨a1, a2, a3, a4, a5⟩ := mergeLocal_spec t g i hc hm
    obtain ⟨h1, h2, h3, h4, h5⟩ :=
      ih (mergeLocal g t) (by rw [a1]; exact hc) (by rw [a2]; exact hm)
    refine ⟨?_, ?_, ?_, ?_, ?_⟩
    · rw [h1, a1]
    · rw [h2, a2]
    · rw [h3, a3]
    · rw [h4, a4]
    · rw [h5, a5, tablesTotal, tablesTotal, List.map_cons, List.sum_cons, add_assoc]

theorem mergeTables_length (tables : List LocalTable) (g : Global) :
    (tables.foldl mergeLocal g).cells.length = g.cells.length ∧
    (tables.foldl mergeLocal g).moments.length = g.moments.length := by
  induction tables generalizing g with
  | nil => simp
  | cons t tables ih =>
    rw [List.foldl_cons]
    have hl : ∀ (t : LocalTable) (g : Global), (mergeLocal g t).cells.length = g.cells.length ∧
        (mergeLocal g t).moments.length = g.moments.length := by
      intro t
      unfold mergeLocal
      induction t with
      | nil => intro g; simp
      | cons e t iht =>
        intro g
        rw [List.foldl_cons, (iht _).1, (iht _).2, mergeEntry_cells_length,
          mergeEntry_moments_length]
        exact ⟨rfl, rfl⟩
    rw [(ih _).1, (ih _).2]
    exact hl t g

theorem Global.init_acc (map : IndexMap) (i : Nat) : (Global.init map).acc i = 0 := by
  simp only [Global.acc, Global.init, List.getD_eq_getElem?_getD]
  by_cases h : i < map.count
  · simp [List.getElem?_replicate, h, VoronoiCell.default]; rfl
  · simp [List.getElem?_replicate, h, VoronoiCell.default]; rfl

/-- The result of `accumulateFromTables`, cell by cell. -/
theorem accumulateFromTables_eq (atan2 : ℚ → ℚ → ℚ) (map : IndexMap) (density : QImage)
    (tables : List LocalTable) :
    accumulateFromTables atan2 map density tables =
      (List.range map.count).map (fun i =>
        finalizeCell atan2 density
          (cellOfTotal (tablesTotal tables i))
          (tablesTotal tables i).m) := by
  unfold accumulateFromTables
  simp only
  obtain ⟨l1, l2⟩ := mergeTables_length tables (Global.init map)
  have c0 : (Global.init map).cells.length = map.count := by simp [Global.init]
  have m0 : (Global.init map).moments.length = map.count := by simp [Global.init]
  apply List.ext_getElem
  · simp [l1, l2, c0, m0]
  · intro i h1 h2
    have hi : i < map.count := by simpa using h2
    obtain ⟨_, _, h3, h4, h5⟩ := mergeTables_spec tables (Global.init map) i
      (by rw [c0]; exact hi) (by rw [m0]; exact hi)
    rw [Global.init_acc, zero_add] at h5
    have hci : i < (tables.foldl mergeLocal (Global.init map)).cells.length := by
      rw [l1, c0]; exact hi
    have hmi : i < (tables.foldl mergeLocal (Global.init map)).moments.length := by
      rw [l2, m0]; exact hi
    have ic : ((Global.init map).cells.getD i VoronoiCell.default) = VoronoiCell.default := by
      simp [Global.init, List.getD_eq_getElem?_getD, List.getElem?_replicate, hi]
    rw [ic] at h3 h4
    simp only [List.getD_eq_getElem?_getD, List.getElem?_eq_getElem hci,
      Option.getD_some] at h3 h4
    rw [List.getElem_zipWith, List.getElem_map, List.getElem_range]
    have e1 : (tables.foldl mergeLocal (Global.init map)).cells[i] =
        cellOfTotal (tablesTotal tables i) := by
      rw [← h5]
      ext
      · simp [cellOfTotal, h3]
      · simp [cellOfTotal, h3]
      · simp [cellOfTotal, h4]
      · simp [cellOfTotal, Global.acc, List.getD_eq_getElem?_getD, List.getElem?_eq_getElem hci]
      · simp [cellOfTotal, Global.acc, List.getD_eq_getElem?_getD, List.getElem?_eq_getElem hci]
    have e2 : (tables.foldl mergeLocal (Global.init map)).moments[i] =
        (tablesTotal tables i).m := by
      rw [← h5]
      simp [Global.acc, List.getD_eq_getElem?_getD, List.getElem?_eq_getElem hmi]
    rw [e1, e2]

/-! ## Accumulation: schedules -/

theorem sum_map_sum_flatten {M : Type} [AddCommMonoid M] (f : Nat → M) (ls : List (List Nat)) :
    (ls.map (fun w => (w.map f).sum)).sum = (ls.flatten.map f).sum := by
  induction ls with
  | nil => rfl
  | cons w ls ih =>
    rw [List.map_cons, List.sum_cons, ih, List.flatten_cons, List.map_append, List.sum_append]

/-- The tables of the workers of a schedule, each one iterated in any order, add up to the
column sums of the scheduled columns. -/
theorem tablesTotal_of_workers (map : IndexMap) (density : QImage) (i : Nat)
    (schedule : List (List Nat)) (tables : List LocalTable)
    (ht : List.Forall₂ (fun t w => t.Perm (accumWorker map density w)) tables schedule) :
    tablesTotal tables i =
      (schedule.map (fun w => (w.map (fun x => ((List.range map.height).map
        (fun y => if map.get x y = i then pixelTerm density x y else 0)).sum)).sum)).sum := by
  unfold tablesTotal
  induction ht with
  | nil => rfl
  | @cons t w ts ws hp _ ih =>
    rw [List.map_cons, List.sum_cons, List.map_cons, List.sum_cons, ih,
      (hp.map _).sum_eq, LocalTable.sum_entries _ _ (nodup_accumWorker map density w),
      find_accumWorker]

/-- The tables of a valid schedule, each one iterated in any order, add up to `cellTotal`. -/
theorem tablesTotal_of_schedule (map : IndexMap) (density : QImage) (i : Nat)
    (schedule : List (List Nat)) (tables : List LocalTable)
    (hs : IsSchedule map schedule)
    (ht : List.Forall₂ (fun t w => t.Perm (accumWorker map density w)) tables schedule) :
    tablesTotal tables i = cellTotal map density i := by
  rw [tablesTotal_of_workers map density i schedule tables ht, sum_map_sum_flatten]
  exact (List.Perm.map _ hs).sum_eq

/-- The result of `accumulateCells` under a valid schedule, cell by cell. -/
theorem accumulateCells_eq (atan2 : ℚ → ℚ → ℚ) (map : IndexMap) (density : QImage)
    (schedule : List (List Nat)) (hs : IsSchedule map schedule) :
    accumulateCells atan2 map density schedule =
      (List.range map.count).map (fun i =>
        finalizeCell atan2 density (cellOfTotal (cellTotal map density i))
          (cellTotal map density i).m) := by
  unfold accumulateCells
  rw [accumulateFromTables_eq]
  apply List.map_congr_left
  intro i _
  have ht : List.Forall₂ (fun t w => t.Perm (accumWorker map density w))
      (schedule.map (accumWorker map density)) schedule := by
    rw [List.forall₂_map_left_iff]
    exact List.forall₂_same.mpr (fun w _ => List.Perm.refl _)
  rw [tablesTotal_of_schedule map density i schedule _ hs ht]

theorem isSchedule_sequential (map : IndexMap) : IsSchedule map (sequentialSchedule map) := by
  simp [IsSchedule, sequentialSchedule]

/-! ## The accumulated totals as sums over pixels -/

theorem list_sum_range_eq_finset_sum {M : Type} [AddCommMonoid M] (f : Nat → M) (n : Nat) :
    ((List.range n).map f).sum = ∑ x in Finset.range n, f x := by
  induction n with
  | zero => simp
  | succ n ih =>
    rw [List.range_succ, List.map_append, List.sum_append, ih, Finset.sum_range_succ]
    simp

theorem list_sum_proj {M : Type} [AddCommMonoid M] (π : LocalAccum → M) (h0 : π 0 = 0)
    (hadd : ∀ a b, π (a + b) = π a + π b) (l : List LocalAccum) :
    π l.sum = (l.map π).sum := by
  induction l with
  | nil => simpa using h0
  | cons a l ih => rw [List.sum_cons, hadd, ih, List.map_cons, List.sum_cons]

theorem cellTotal_proj {M : Type} [AddCommMonoid M] (π : LocalAccum → M) (h0 : π 0 = 0)
    (hadd : ∀ a b, π (a + b) = π a + π b) (map : IndexMap) (density : QImage) (i : Nat) :
    π (cellTotal map density i) =
      ∑ x in Finset.range map.width, ∑ y in Finset.range map.height,
        if map.get x y = i then π (pixelTerm density x y) else 0 := by
  unfold cellTotal
  rw [list_sum_proj π h0 hadd, List.map_map, list_sum_range_eq_finset_sum]
  apply Finset.sum_congr rfl
  intro x _
  rw [Function.comp_apply, list_sum_proj π h0 hadd, List.map_map, list_sum_range_eq_finset_sum]
  apply Finset.sum_congr rfl
  intro y _
  rw [Function.comp_apply]
  split
  · rfl
  · exact h0

theorem cellTotal_area (map : IndexMap) (density : QImage) (i : Nat) :
    (cellTotal map density i).area = pixelCount map i := by
  rw [cellTotal_proj LocalAccum.area rfl (fun _ _ => rfl)]
  unfold pixelCount
  rw [Finset.card_filter, Finset.sum_product]
  apply Finset.sum_congr rfl
  intro x _
  apply Finset.sum_congr rfl
  intro y _
  split <;> simp [pixelTerm, accumPixel]

theorem cellTotal_sumDensity (map : IndexMap) (density : QImage) (i : Nat) :
    (cellTotal map density i).sumDensity = rawMoment map density i 0 0 := by
  rw [cellTotal_proj LocalAccum.sumDensity rfl (fun _ _ => rfl)]
  unfold rawMoment
  simp [pixelTerm, accumPixel]

theorem cellTotal_moment00 (map : IndexMap) (density : QImage) (i : Nat) :
    (cellTotal map density i).m.moment00 = rawMoment map density i 0 0 := by
  rw [cellTotal_proj (fun a => a.m.moment00) rfl (fun _ _ => rfl)]
  unfold rawMoment
  simp [pixelTerm, accumPixel]

theorem cellTotal_moment10 (map : IndexMap) (density : QImage) (i : Nat) :
    (cellTotal map density i).m.moment10 = rawMoment map density i 1 0 := by
  rw [cellTotal_proj (fun a => a.m.moment10) rfl (fun _ _ => rfl)]
  unfold rawMoment
  simp [pixelTerm, accumPixel]

theorem cellTotal_moment01 (map : IndexMap) (density : QImage) (i : Nat) :
    (cellTotal map density i).m.moment01 = rawMoment map density i 0 1 := by
  rw [cellTotal_proj (fun a => a.m.moment01) rfl (fun _ _ => rfl)]
  unfold rawMoment
  simp [pixelTerm, accumPixel]

theorem finalizeCell_area (atan2 : ℚ → ℚ → ℚ) (density : QImage) (cell : VoronoiCell)
    (mom : Moments) : (finalizeCell atan2 density cell mom).area = cell.area := by
  unfold finalizeCell
  split <;> rfl

theorem finalizeCell_sumDensity (atan2 : ℚ → ℚ → ℚ) (density : QImage) (cell : VoronoiCell)
    (mom : Moments) : (finalizeCell atan2 density cell mom).sumDensity = cell.sumDensity := by
  unfold finalizeCell
  split <;> rfl

theorem accumulateCells_getElem? (atan2 : ℚ → ℚ → ℚ) (map : IndexMap) (density : QImage)
    (schedule : List (List Nat)) (hs : IsSchedule map schedule) (i : Nat) (hi : i < map.count) :
    (accumulateCells atan2 map density schedule)[i]? =
      some (finalizeCell atan2 density (cellOfTotal (cellTotal map density i))
        (cellTotal map density i).m) := by
  rw [accumulateCells_eq atan2 map density schedule hs, List.getElem?_map,
    List.getElem?_range hi]
  rfl

theorem accumulateFromTables_length (atan2 : ℚ → ℚ → ℚ) (map : IndexMap) (density : QImage)
    (tables : List LocalTable) :
    (accumulateFromTables atan2 map density tables).length = map.count := by
  rw [accumulateFromTables_eq]
  simp

theorem sum_pixelCount (map : IndexMap)
    (hval : ∀ x y, x < map.width → y < map.height → map.get x y < map.count) :
    ∑ i in Finset.range map.count, pixelCount map i = map.width * map.height := by
  unfold pixelCount
  rw [← Finset.card_eq_sum_card_fiberwise, Finset.card_product, Finset.card_range,
    Finset.card_range]
  intro p hp
  rw [Finset.mem_product, Finset.mem_range, Finset.mem_range] at hp
  exact Finset.mem_range.mpr (hval p.1 p.2 hp.1 hp.2)

theorem cellTotal_eq_zero (map : IndexMap) (density : QImage) (i : Nat)
    (hno : ∀ x y, x < map.width → y < map.height → map.get x y ≠ i) :
    cellTotal map density i = 0 := by
  unfold cellTotal
  apply List.sum_eq_zero
  intro a ha
  rw [List.mem_map] at ha
  obtain ⟨x, hx, rfl⟩ := ha
  apply List.sum_eq_zero
  intro b hb
  rw [List.mem_map] at hb
  obtain ⟨y, hy, rfl⟩ := hb
  rw [if_neg (hno x y (List.mem_range.mp hx) (List.mem_range.mp hy))]

theorem floatEpsilon_pos : 0 < floatEpsilon := by
  unfold floatEpsilon; norm_num

theorem grayWeight_pos (gray : Nat) : 0 < grayWeight gray :=
  lt_of_lt_of_le floatEpsilon_pos (le_max_right _ _)

theorem sum_range_cast (n : Nat) : ∑ x in Finset.range n, (x : ℚ) = (n : ℚ) * ((n : ℚ) - 1) / 2 := by
  induction n with
  | zero => simp
  | succ n ih =>
    rw [Finset.sum_range_succ, ih]
    push_cast
    ring

/-- The area, mass and centroid of the finalised cell in terms of the raw moments, for a
cell of positive mass. -/
theorem finalizeCell_cellTotal_centroid (atan2 : ℚ → ℚ → ℚ) (map : IndexMap)
    (density : QImage) (i : Nat) (hmass : 0 < rawMoment map density i 0 0) :
    (finalizeCell atan2 density (cellOfTotal (cellTotal map density i))
        (cellTotal map density i).m).area = pixelCount map i ∧
    (finalizeCell atan2 density (cellOfTotal (cellTotal map density i))
        (cellTotal map density i).m).sumDensity = rawMoment map density i 0 0 ∧
    (finalizeCell atan2 density (cellOfTotal (cellTotal map density i))
        (cellTotal map density i).m).centroid =
      ((centroidX map density i + 1 / 2) / (density.width : ℚ),
        (centroidY map density i + 1 / 2) / (density.height : ℚ)) := by
  have hs : ¬ (cellOfTotal (cellTotal map density i)).sumDensity ≤ 0 := by
    simp only [cellOfTotal, cellTotal_sumDensity]
    exact not_le.mpr hmass
  unfold finalizeCell
  rw [if_neg hs]
  simp only [cellOfTotal, cellTotal_sumDensity, cellTotal_area, cellTotal_moment00,
    cellTotal_moment10, cellTotal_moment01, centroidX, centroidY, and_self]

/-- Claim C4. For every index map whose values are all below `count()`, every density image and
every valid schedule of the columns, `accumulateCells` returns exactly `count()` cells, the
area of cell `i` is the number of pixels `(x, y)` with `map.get(x, y) == i`, and the areas of
all cells add up to `width * height`. -/
theorem accumulateCells_area_partition (atan2 : ℚ → ℚ → ℚ) (map : IndexMap) (density : QImage)
    (schedule : List (List Nat)) (hs : IsSchedule map schedule)
    (hval : ∀ x < map.width, ∀ y < map.height, map.get x y < map.count) :
    (accumulateCells atan2 map density schedule).length = map.count ∧
    (∀ i, i < map.count → ∃ cell, (accumulateCells atan2 map density schedule)[i]? = some cell ∧
      cell.area = pixelCount map i) ∧
    ((accumulateCells atan2 map density schedule).map (fun cell => cell.area)).sum =
      map.width * map.height := by
  refine ⟨accumulateFromTables_length atan2 map density _, ?_, ?_⟩
  · intro i hi
    refine ⟨_, accumulateCells_getElem? atan2 map density schedule hs i hi, ?_⟩
    rw [finalizeCell_area]
    exact cellTotal_area map density i
  · rw [accumulateCells_eq atan2 map density schedule hs, List.map_map,
      list_sum_range_eq_finset_sum, ← sum_pixelCount map (fun x y hx hy => hval x hx y hy)]
    apply Finset.sum_congr rfl
    intro i _
    rw [Function.comp_apply, finalizeCell_area]
    exact cellTotal_area map density i

/-- Claim C4 at `exampleMap`, with one thread for column `1` and one for column `0`. -/
theorem accumulateCells_area_partition_witness :
    (accumulateCells (fun _ _ => 0) exampleMap exampleDensity [[1], [0]]).length =
      exampleMap.count ∧
    (∀ i, i < exampleMap.count →
      ∃ cell, (accumulateCells (fun _ _ => 0) exampleMap exampleDensity [[1], [0]])[i]? =
        some cell ∧ cell.area = pixelCount exampleMap i) ∧
    ((accumulateCells (fun _ _ => 0) exampleMap exampleDensity [[1], [0]]).map
      (fun cell => cell.area)).sum = exampleMap.width * exampleMap.height :=
  accumulateCells_area_partition (fun _ _ => 0) exampleMap exampleDensity [[1], [0]]
    (by decide) (by decide)

/-- Claim C5. For a `W x H` canvas (`W, H >= 1`) whose index map is `0` at every pixel and whose
density image has the same gray level at every pixel, hence the uniform weight
`c = max(1 - gray / 255, epsilon)`, cell `0` has `sumDensity = c * W * H` and centroid
`(1/2, 1/2)`, under every valid schedule. -/
theorem accumulateCells_uniform (atan2 : ℚ → ℚ → ℚ) (map : IndexMap) (density : QImage)
    (schedule : List (List Nat)) (gray : Nat) (hs : IsSchedule map schedule)
    (hW : 1 ≤ map.width) (hH : 1 ≤ map.height)
    (hdim : density.width = map.width ∧ density.height = map.height)
    (hcount : 1 ≤ map.count)
    (hzero : ∀ x < map.width, ∀ y < map.height, map.get x y = 0)
    (hgray : ∀ x < map.width, ∀ y < map.height, qGray (density.pixel x y) = gray) :
    ∃ cell, (accumulateCells atan2 map density schedule)[0]? = some cell ∧
      cell.sumDensity = grayWeight gray * ((map.width : ℚ) * (map.height : ℚ)) ∧
      cell.centroid = (1 / 2, 1 / 2) := by
  have hc := grayWeight_pos gray
  have hWq : (0 : ℚ) < (map.width : ℚ) := by exact_mod_cast hW
  have hHq : (0 : ℚ) < (map.height : ℚ) := by exact_mod_cast hH
  have hraw : ∀ p q : Nat, rawMoment map density 0 p q =
      grayWeight gray * ((∑ x in Finset.range map.width, (x : ℚ) ^ p) *
        (∑ y in Finset.range map.height, (y : ℚ) ^ q)) := by
    intro p q
    unfold rawMoment
    rw [Finset.sum_mul_sum, Finset.mul_sum]
    apply Finset.sum_congr rfl
    intro x hx
    rw [Finset.mul_sum]
    apply Finset.sum_congr rfl
    intro y hy
    rw [if_pos (hzero x (Finset.mem_range.mp hx) y (Finset.mem_range.mp hy))]
    unfold densityVal
    rw [hgray x (Finset.mem_range.mp hx) y (Finset.mem_range.mp hy)]
    ring
  have h00 : rawMoment map density 0 0 0 =
      grayWeight gray * ((map.width : ℚ) * (map.height : ℚ)) := by
    rw [hraw]; simp
  have h10 : rawMoment map density 0 1 0 =
      grayWeight gray * ((map.width : ℚ) * ((map.width : ℚ) - 1) / 2 * (map.height : ℚ)) := by
    rw [hraw]; simp [sum_range_cast]
  have h01 : rawMoment map density 0 0 1 =
      grayWeight gray * ((map.width : ℚ) * ((map.height : ℚ) * ((map.height : ℚ) - 1) / 2)) := by
    rw [hraw]; simp [sum_range_cast]
  have hmass : 0 < rawMoment map density 0 0 0 := by
    rw [h00]; positivity
  refine ⟨_, accumulateCells_getElem? atan2 map density schedule hs 0 hcount, ?_, ?_⟩
  · rw [(finalizeCell_cellTotal_centroid atan2 map density 0 hmass).2.1]
    exact h00
  · rw [(finalizeCell_cellTotal_centroid atan2 map density 0 hmass).2.2]
    simp only [centroidX, centroidY, h00, h10, h01, hdim.1, hdim.2]
    refine Prod.ext ?_ ?_
    · simp only
      field_simp
      ring
    · simp only
      field_simp
      ring

/-- Claim C5 at the `2 x 2` single-cell map and the black density image. -/
theorem accumulateCells_uniform_witness :
    ∃ cell, (accumulateCells (fun _ _ => 0) singleMap exampleDensity [[1], [0]])[0]? =
        some cell ∧
      cell.sumDensity = grayWeight 0 * (((singleMap.width : Nat) : ℚ) * (singleMap.height : ℚ)) ∧
      cell.centroid = (1 / 2, 1 / 2) :=
  accumulateCells_uniform (fun _ _ => 0) singleMap exampleDensity [[1], [0]] 0
    (by decide) (by decide) (by decide) ⟨rfl, rfl⟩ (by decide) (by decide) (by decide)

/-- Claim C6. For every index map and density image and every partition of the columns
`0 .. width - 1` among workers (`schedule`, in any order of the workers), with the entries
of each worker's table merged in any order (`tables`), the merge leaves for every cell the
same area, mass and raw moments as one sequential pass over all columns, and the returned
cells (area, mass, centroid, orientation) are the same. -/
theorem accumulate_schedule_independent (atan2 : ℚ → ℚ → ℚ) (map : IndexMap)
    (density : QImage) (schedule : List (List Nat)) (tables : List LocalTable)
    (hs : IsSchedule map schedule)
    (ht : List.Forall₂ (fun t w => t.Perm (accumWorker map density w)) tables schedule) :
    (∀ i, i < map.count →
      (tables.foldl mergeLocal (Global.init map)).acc i =
        (((sequentialSchedule map).map (accumWorker map density)).foldl mergeLocal
          (Global.init map)).acc i) ∧
    accumulateFromTables atan2 map density tables =
      accumulateCells atan2 map density (sequentialSchedule map) := by
  constructor
  · intro i hi
    have c0 : i < (Global.init map).cells.length := by simpa [Global.init] using hi
    have m0 : i < (Global.init map).moments.length := by simpa [Global.init] using hi
    have hseq : List.Forall₂ (fun t w => t.Perm (accumWorker map density w))
        ((sequentialSchedule map).map (accumWorker map density)) (sequentialSchedule map) := by
      rw [List.forall₂_map_left_iff]
      exact List.forall₂_same.mpr (fun w _ => List.Perm.refl _)
    rw [(mergeTables_spec tables (Global.init map) i c0 m0).2.2.2.2,
      (mergeTables_spec _ (Global.init map) i c0 m0).2.2.2.2,
      tablesTotal_of_schedule map density i schedule tables hs ht,
      tablesTotal_of_schedule map density i _ _ (isSchedule_sequential map) hseq]
  · rw [accumulateCells_eq atan2 map density _ (isSchedule_sequential map),
      accumulateFromTables_eq]
    apply List.map_congr_left
    intro i _
    rw [tablesTotal_of_schedule map density i schedule tables hs ht]

/-- Claim C6 at `exampleMap` with two threads, the second table iterated in reverse. -/
theorem accumulate_schedule_independent_witness :
    (∀ i, i < exampleMap.count →
      ([accumWorker exampleMap exampleDensity [1],
          (accumWorker exampleMap exampleDensity [0]).reverse].foldl mergeLocal
            (Global.init exampleMap)).acc i =
        (((sequentialSchedule exampleMap).map (accumWorker exampleMap exampleDensity)).foldl
          mergeLocal (Global.init exampleMap)).acc i) ∧
    accumulateFromTables (fun _ _ => 0) exampleMap exampleDensity
        [accumWorker exampleMap exampleDensity [1],
          (accumWorker exampleMap exampleDensity [0]).reverse] =
      accumulateCells (fun _ _ => 0) exampleMap exampleDensity (sequentialSchedule exampleMap) :=
  accumulate_schedule_independent (fun _ _ => 0) exampleMap exampleDensity [[1], [0]]
    [accumWorker exampleMap exampleDensity [1],
      (accumWorker exampleMap exampleDensity [0]).reverse]
    (by decide)
    (List.Forall₂.cons (List.Perm.refl _)
      (List.Forall₂.cons (List.reverse_perm _) List.Forall₂.nil))

/-- Claim C7. For every index map, density image and valid schedule, a cell index `i < count()`
that no pixel of the map carries is returned as a default-constructed `VoronoiCell`:
area `0`, mass `0`, and the default centroid and orientation, whatever `atan2` is. -/
theorem accumulateCells_empty_cell (atan2 : ℚ → ℚ → ℚ) (map : IndexMap) (density : QImage)
    (schedule : List (List Nat)) (i : Nat) (hs : IsSchedule map schedule)
    (hi : i < map.count)
    (hno : ∀ x < map.width, ∀ y < map.height, map.get x y ≠ i) :
    ∃ cell, (accumulateCells atan2 map density schedule)[i]? = some cell ∧
      cell.area = 0 ∧ cell.sumDensity = 0 ∧
      cell.centroid = VoronoiCell.default.centroid ∧
      cell.orientation = VoronoiCell.default.orientation := by
  refine ⟨_, accumulateCells_getElem? atan2 map density schedule hs i hi, ?_⟩
  rw [cellTotal_eq_zero map density i (fun x y hx hy => hno x hx y hy)]
  refine ⟨rfl, rfl, rfl, rfl⟩

/-- Claim C7 at `sparseMap`, whose cell `2` owns no pixel. -/
theorem accumulateCells_empty_cell_witness :
    ∃ cell, (accumulateCells (fun _ _ => 1) sparseMap exampleDensity [[1], [0]])[2]? =
        some cell ∧
      cell.area = 0 ∧ cell.sumDensity = 0 ∧
      cell.centroid = VoronoiCell.default.centroid ∧
      cell.orientation = VoronoiCell.default.orientation :=
  accumulateCells_empty_cell (fun _ _ => 1) sparseMap exampleDensity [[1], [0]] 2
    (by decide) (by decide) (by decide)

/-- Claim C8, refuted for a `1 x 1` index map and a `2 x 2` density image: the call returns the
statistics of the one cell, with the centroid normalised by the size of the density image. -/
theorem accumulateCells_mismatch_counterexample :
    wideDensity.width ≠ unitMap.width ∧ wideDensity.height ≠ unitMap.height ∧
    accumulateCells (fun _ _ => 0) unitMap wideDensity [[0]] =
      [{ centroid := (1 / 4, 1 / 4), orientation := 0, area := 1, sumDensity := 1 }] := by
  refine ⟨by decide, by decide, ?_⟩
  decide!

/-- Claim C8, amended. `accumulateCells` has no dimension check: for every index map and every
density image, of the same size or not, and every schedule it returns a complete sequence
of exactly `count()` cells. -/
theorem accumulateCells_length (atan2 : ℚ → ℚ → ℚ) (map : IndexMap) (density : QImage)
    (schedule : List (List Nat)) :
    (accumulateCells atan2 map density schedule).length = map.count :=
  accumulateFromTables_length atan2 map density _

/-! ### A cell of a single pixel -/

theorem foldl_set_m_data (v : Nat → Nat) (y : Nat) (xs : List Nat) (m : IndexMap) :
    xs.foldl (fun m x => m.set x y (v x)) m =
      { m with m_data := xs.foldl (fun d x => d.set (y * m.width + x) (v x)) m.m_data } := by
  induction xs generalizing m with
  | nil => rfl
  | cons x xs ih =>
    rw [List.foldl_cons, ih]
    rfl

/-- One row of stores: the entries `base .. base + n - 1` receive `g 0 .. g (n - 1)`. -/
theorem foldl_set_range (g : Nat → Nat) (base n : Nat) (d : List Nat) :
    ((List.range n).foldl (fun d x => d.set (base + x) (g x)) d).length = d.length ∧
    ∀ k, ((List.range n).foldl (fun d x => d.set (base + x) (g x)) d).getD k 0 =
      if base ≤ k ∧ k < base + n ∧ k < d.length then g (k - base) else d.getD k 0 := by
  induction n with
  | zero =>
    refine ⟨rfl, fun k => ?_⟩
    have : ¬ (base ≤ k ∧ k < base + 0 ∧ k < d.length) := by omega
    rw [if_neg this]
    rfl
  | succ n ih =>
    obtain ⟨hl, hg⟩ := ih
    rw [List.range_succ, List.foldl_append, List.foldl_cons, List.foldl_nil]
    refine ⟨by rw [List.length_set, hl], fun k => ?_⟩
    rw [List.getD_eq_getElem?_getD, List.getElem?_set]
    by_cases hk : base + n = k
    · subst hk
      rw [if_pos rfl, hl]
      by_cases hlen : base + n < d.length
      · simp [hlen]
      · have hnone : d[base + n]? = none := List.getElem?_eq_none (by omega)
        simp [hlen, hnone]
    · rw [if_neg hk, ← List.getD_eq_getElem?_getD, hg k]
      by_cases hc : base ≤ k ∧ k < base + n ∧ k < d.length
      · rw [if_pos hc, if_pos ⟨hc.1, by omega, hc.2.2⟩]
      · rw [if_neg hc, if_neg (by omega)]

theorem foldl_rows_m_data (v : Nat → Nat → Nat) (xs ys : List Nat) (m : IndexMap) :
    ys.foldl (fun m y => xs.foldl (fun m x => m.set x y (v x y)) m) m =
      { m with m_data :=
          (ys.foldl (fun d y => xs.foldl (fun d x => d.set (y * m.width + x) (v x y)) d)
            m.m_data) } := by
  induction ys generalizing m with
  | nil => rfl
  | cons y ys ih =>
    rw [List.foldl_cons, foldl_set_m_data (fun x => v x y) y xs m, ih]
    rfl

/-- All rows of stores: entry `k < h * w` receives the value for column `k % w`, row `k / w`. -/
theorem foldl_rows_range (v : Nat → Nat → Nat) (w h : Nat) (d : List Nat) :
    ((List.range h).foldl
      (fun d y => (List.range w).foldl (fun d x => d.set (y * w + x) (v x y)) d) d).length =
        d.length ∧
    ∀ k, ((List.range h).foldl
      (fun d y => (List.range w).foldl (fun d x => d.set (y * w + x) (v x y)) d) d).getD k 0 =
      if k < h * w ∧ k < d.length then v (k % w) (k / w) else d.getD k 0 := by
  induction h with
  | zero =>
    refine ⟨rfl, fun k => ?_⟩
    have : ¬ (k < 0 * w ∧ k < d.length) := by omega
    rw [if_neg this]
    rfl
  | succ h ih =>
    obtain ⟨hl, hg⟩ := ih
    rw [List.range_succ, List.foldl_append, List.foldl_cons, List.foldl_nil]
    obtain ⟨rl, rg⟩ := foldl_set_range (fun x => v x h) (h * w) w
      ((List.range h).foldl
        (fun d y => (List.range w).foldl (fun d x => d.set (y * w + x) (v x y)) d) d)
    refine ⟨by rw [rl, hl], fun k => ?_⟩
    rw [rg k, hl, hg k]
    have hmul : (h + 1) * w = h * w + w := Nat.succ_mul h w
    by_cases hrow : h * w ≤ k ∧ k < h * w + w ∧ k < d.length
    · rw [if_pos hrow, if_pos ⟨by omega, hrow.2.2⟩]
      have hk : k = (k - h * w) + h * w := by omega
      have hr : k - h * w < w := by omega
      have hmod : k % w = k - h * w := by
        rw [hk, Nat.add_mul_mod_self_right, Nat.mod_eq_of_lt hr]
        omega
      have hdiv : k / w = h := by
        have hw : 0 < w := by omega
        rw [hk, Nat.add_mul_div_right _ _ hw, Nat.div_eq_of_lt hr, Nat.zero_add]
      rw [hmod, hdiv]
    · rw [if_neg hrow]
      by_cases hlt : k < h * w ∧ k < d.length
      · rw [if_pos hlt, if_pos ⟨by omega, hlt.2⟩]
      · rw [if_neg hlt, if_neg (by omega)]

theorem writtenOffsets_eq_range (width height : Nat) :
    writtenOffsets width height = List.range (height * width) := by
  unfold writtenOffsets
  induction height with
  | zero => simp
  | succ h ih =>
    rw [List.range_succ, List.flatMap_append, ih, List.flatMap_singleton, Nat.succ_mul,
      List.range_add]

/-- The index map that `calculate` returns when every decoded index passes the assertion. -/
theorem calculate_get (points : List QVector2D) (width height : Nat) (pixelBuffer : List Nat)
    (hne : points ≠ [])
    (hassert : ∀ x y, x < width → y < height →
      decodeAt pixelBuffer width height x y ≤ points.length) :
    ∃ m, calculate points width height pixelBuffer = .ok m ∧
      m.width = width ∧ m.height = height ∧ m.count = points.length ∧
      m.m_data.length = width * height ∧
      ∀ x y, x < width → y < height →
        m.get x y = decodeAt pixelBuffer width height x y := by
  refine ⟨_, calculate_ok points width height pixelBuffer hne hassert, ?_⟩
  rw [foldl_rows_m_data (fun x y => decodeAt pixelBuffer width height x y)]
  obtain ⟨hl, hg⟩ := foldl_rows_range (fun x y => decodeAt pixelBuffer width height x y)
    width height (List.replicate (width * height) 0)
  refine ⟨rfl, rfl, rfl, ?_, ?_⟩
  · simpa [IndexMap.new] using hl
  · intro x y hx hy
    have hk : y * width + x < height * width := by
      have : (y + 1) * width ≤ height * width := Nat.mul_le_mul_right _ hy
      rw [Nat.succ_mul] at this
      omega
    have hmod : (y * width + x) % width = x := by
      rw [Nat.add_comm, Nat.add_mul_mod_self_right, Nat.mod_eq_of_lt hx]
    have hdiv : (y * width + x) / width = y := by
      rw [Nat.add_comm, Nat.add_mul_div_right _ _ (by omega), Nat.div_eq_of_lt hx,
        Nat.zero_add]
    simp only [IndexMap.get, IndexMap.new]
    rw [hg (y * width + x), List.length_replicate,
      if_pos ⟨hk, by rw [Nat.mul_comm width height]; exact hk⟩, hmod, hdiv]

/-! ## Claim about the read-back order -/

/-- Claim C11. For every `W x H` read-back buffer whose decoded indices all pass the index
assertion, `calculate` returns an index map of size `W x H` with, for all `x < W` and
`y < H`, `get(x, y)` equal to the decode of the three bytes at offset
`((H - 1 - y) * W + x) * 3`, which lie inside a buffer of `W * H * 3` bytes: the vertical
axis is flipped, the horizontal axis is not. The offsets of `m_data` written by the loop are
`0, 1, ..., W * H - 1` in this order, so each map entry is written exactly once. -/
theorem calculate_readback_flipped (points : List QVector2D) (width height : Nat)
    (pixelBuffer : List Nat) (hne : points ≠ [])
    (hassert : ∀ x < width, ∀ y < height,
      decodeAt pixelBuffer width height x y ≤ points.length) :
    (∃ m, calculate points width height pixelBuffer = .ok m ∧
      m.width = width ∧ m.height = height ∧ m.count = points.length ∧
      ∀ x < width, ∀ y < height,
        ((height - 1 - y) * width + x) * 3 + 2 < width * height * 3 ∧
        m.get x y =
          decode (pixelBuffer.getD (((height - 1 - y) * width + x) * 3) 0)
            (pixelBuffer.getD (((height - 1 - y) * width + x) * 3 + 1) 0)
            (pixelBuffer.getD (((height - 1 - y) * width + x) * 3 + 2) 0)) ∧
    writtenOffsets width height = List.range (width * height) ∧
    ∀ k < width * height, (writtenOffsets width height).count k = 1 := by
  have hoff : writtenOffsets width height = List.range (width * height) := by
    rw [writtenOffsets_eq_range, Nat.mul_comm]
  refine ⟨?_, hoff, ?_⟩
  · obtain ⟨m, hm, hw, hh, hc, _, hg⟩ := calculate_get points width height pixelBuffer hne
      (fun x y hx hy => hassert x hx y hy)
    refine ⟨m, hm, hw, hh, hc, ?_⟩
    intro x hx y hy
    refine ⟨?_, ?_⟩
    · have h1 : (height - 1 - y + 1) * width ≤ height * width :=
        Nat.mul_le_mul_right _ (by omega)
      rw [Nat.succ_mul] at h1
      rw [Nat.mul_comm width height]
      omega
    · rw [hg x y hx hy]
      rfl
  · intro k hk
    rw [hoff]
    exact List.count_eq_one_of_mem (List.nodup_range _) (List.mem_range.mpr hk)

/-- Claim C11 at two sites and the `2 x 2` buffer `exampleBuffer`. -/
theorem calculate_readback_flipped_witness :
    (∃ m, calculate [⟨0, 0⟩, ⟨1, 1⟩] 2 2 exampleBuffer = .ok m ∧
      m.width = 2 ∧ m.height = 2 ∧ m.count = ([⟨0, 0⟩, ⟨1, 1⟩] : List QVector2D).length ∧
      ∀ x < 2, ∀ y < 2,
        ((2 - 1 - y) * 2 + x) * 3 + 2 < 2 * 2 * 3 ∧
        m.get x y =
          decode (exampleBuffer.getD (((2 - 1 - y) * 2 + x) * 3) 0)
            (exampleBuffer.getD (((2 - 1 - y) * 2 + x) * 3 + 1) 0)
            (exampleBuffer.getD (((2 - 1 - y) * 2 + x) * 3 + 2) 0)) ∧
    writtenOffsets 2 2 = List.range (2 * 2) ∧
    ∀ k < 2 * 2, (writtenOffsets 2 2).count k = 1 :=
  calculate_readback_flipped [⟨0, 0⟩, ⟨1, 1⟩] 2 2 exampleBuffer (by simp) (by decide)

/-! ## The slice count of a `1 x 1` canvas in exact arithmetic -/

theorem cos_two_pi_div_five : Real.cos (2 * (Real.pi / 5)) = (Real.sqrt 5 - 1) / 4 := by
  rw [Real.cos_two_mul, Real.cos_pi_div_five]
  have h5 : Real.sqrt 5 ^ 2 = 5 := Real.sq_sqrt (by norm_num)
  nlinarith [h5]

theorem sqrt_two_bounds : (1.414 : ℝ) < Real.sqrt 2 ∧ Real.sqrt 2 < 1.415 := by
  constructor
  · rw [Real.lt_sqrt (by norm_num)]; norm_num
  · rw [Real.sqrt_lt' (by norm_num)]; norm_num

theorem sqrt_five_lower : (2.236 : ℝ) < Real.sqrt 5 := by
  rw [Real.lt_sqrt (by norm_num)]; norm_num

/-- The argument of `acos` for `radius = sqrt 2`, `maxError = 1`. -/
theorem acos_argument_bounds :
    0 < (Real.sqrt 2 - 1) / Real.sqrt 2 ∧
    (Real.sqrt 2 - 1) / Real.sqrt 2 < (Real.sqrt 5 - 1) / 4 := by
  obtain ⟨h1, h2⟩ := sqrt_two_bounds
  have h5 := sqrt_five_lower
  have hpos : 0 < Real.sqrt 2 := by linarith
  constructor
  · apply div_pos (by linarith) hpos
  · rw [div_lt_iff₀ hpos]
    nlinarith

theorem arccos_argument_bounds :
    2 * (Real.pi / 5) < Real.arccos ((Real.sqrt 2 - 1) / Real.sqrt 2) ∧
    Real.arccos ((Real.sqrt 2 - 1) / Real.sqrt 2) < Real.pi / 2 := by
  obtain ⟨h0, h1⟩ := acos_argument_bounds
  have hs5 : Real.sqrt 5 < 3 := by
    rw [Real.sqrt_lt' (by norm_num)]; norm_num
  have hs5' := sqrt_five_lower
  constructor
  · have hmem1 : (Real.sqrt 2 - 1) / Real.sqrt 2 ∈ Set.Icc (-1 : ℝ) 1 := by
      constructor <;> linarith
    have hmem2 : (Real.sqrt 5 - 1) / 4 ∈ Set.Icc (-1 : ℝ) 1 := by
      constructor <;> linarith
    have := Real.strictAntiOn_arccos hmem1 hmem2 h1
    rw [← cos_two_pi_div_five, Real.arccos_cos (by positivity)
      (by nlinarith [Real.pi_pos])] at this
    exact this
  · exact Real.arccos_lt_pi_div_two.mpr h0

/-- The exact quotient `2 * pi / alpha` of a `1 x 1` canvas lies strictly between `2` and
`5 / 2`. -/
theorem unit_canvas_quotient_bounds :
    2 < 2 * Real.pi / (2 * Real.arccos ((Real.sqrt 2 - 1) / Real.sqrt 2)) ∧
    2 * Real.pi / (2 * Real.arccos ((Real.sqrt 2 - 1) / Real.sqrt 2)) < 5 / 2 := by
  obtain ⟨h1, h2⟩ := arccos_argument_bounds
  have hpos : 0 < 2 * Real.arccos ((Real.sqrt 2 - 1) / Real.sqrt 2) := by
    nlinarith [Real.pi_pos]
  constructor
  · rw [lt_div_iff₀ hpos]; linarith
  · rw [div_lt_iff₀ hpos]; linarith

/-- The slice count of the `1 x 1` canvas: the code gives `2`, the ceiling is `3`, and a
slice of the code's fan spans more than `alpha`. -/
theorem numConeSlices_unit_canvas_eval :
    numConeSlices Real.sqrt Real.arccos Real.pi 1 1 = 2 ∧
    ⌈2 * Real.pi /
      (2 * Real.arccos ((Real.sqrt 2 - 1 / ((max 1 1 : Nat) : ℝ)) / Real.sqrt 2))⌉₊ = 3 ∧
    2 * Real.arccos ((Real.sqrt 2 - 1 / ((max 1 1 : Nat) : ℝ)) / Real.sqrt 2) <
      2 * Real.pi / ((numConeSlices Real.sqrt Real.arccos Real.pi 1 1 : Nat) : ℝ) := by
  obtain ⟨hq1, hq2⟩ := unit_canvas_quotient_bounds
  obtain ⟨ha1, ha2⟩ := arccos_argument_bounds
  have hcode : numConeSlices Real.sqrt Real.arccos Real.pi 1 1 = 2 := by
    simp only [numConeSlices, calcNumConeSlices, gt_iff_lt, lt_self_iff_false, if_false,
      Nat.cast_one, div_one]
    rw [Nat.floor_eq_iff (by linarith)]
    constructor
    · push_cast; linarith
    · push_cast; linarith
  have hmax : ((max 1 1 : Nat) : ℝ) = 1 := by norm_num
  refine ⟨hcode, ?_, ?_⟩
  · rw [hmax, div_one, Nat.ceil_eq_iff (by norm_num)]
    constructor
    · push_cast; linarith
    · push_cast; linarith
  · rw [hcode, hmax, div_one]
    push_cast
    linarith

/-! ## The slice count of a `256 x 256` canvas in exact arithmetic -/

theorem sqrt_two_bounds_fine : (1.41421 : ℝ) < Real.sqrt 2 ∧ Real.sqrt 2 < 1.41422 := by
  constructor
  · rw [Real.lt_sqrt (by norm_num)]; norm_num
  · rw [Real.sqrt_lt' (by norm_num)]; norm_num

/-- The argument of `acos` for `radius = sqrt 2`, `maxError = 1 / 256`. -/
theorem acos_argument_bounds_256 :
    (0.9972378 : ℝ) < (Real.sqrt 2 - 1 / 256) / Real.sqrt 2 ∧
    (Real.sqrt 2 - 1 / 256) / Real.sqrt 2 < 0.9972379 := by
  obtain ⟨h1, h2⟩ := sqrt_two_bounds_fine
  have hpos : 0 < Real.sqrt 2 := by linarith
  constructor
  · rw [lt_div_iff₀ hpos]; linarith
  · rw [div_lt_iff₀ hpos]; linarith

theorem cos_small_bounds (x : ℝ) (h0 : 0 ≤ x) (h1 : x ≤ 1) :
    1 - x ^ 2 / 2 - x ^ 4 * (5 / 96) ≤ Real.cos x ∧
    Real.cos x ≤ 1 - x ^ 2 / 2 + x ^ 4 * (5 / 96) := by
  have hb := Real.cos_bound (x := x) (by rw [abs_of_nonneg h0]; exact h1)
  rw [abs_of_nonneg h0, abs_le] at hb
  constructor <;> linarith [hb.1, hb.2]

theorem cos_pi_div_42_lt : Real.cos (Real.pi / 42) < 0.9972378 := by
  have hp1 := Real.pi_gt_d6
  have hp2 := Real.pi_lt_d6
  have hx0 : (0.0747998 : ℝ) < Real.pi / 42 := by
    rw [lt_div_iff₀ (by norm_num)]; linarith
  have hx1 : Real.pi / 42 < 0.0748 := by
    rw [div_lt_iff₀ (by norm_num)]; linarith
  obtain ⟨_, hu⟩ := cos_small_bounds (Real.pi / 42) (by linarith) (by linarith)
  have hsq : (0.0747998 : ℝ) ^ 2 < (Real.pi / 42) ^ 2 := by
    apply pow_lt_pow_left₀ hx0 (by norm_num) (by norm_num)
  have hq : (Real.pi / 42) ^ 4 < (0.0748 : ℝ) ^ 4 := by
    apply pow_lt_pow_left₀ hx1 (by linarith) (by norm_num)
  norm_num at hsq hq
  linarith

theorem lt_cos_two_pi_div_85 : (0.9972379 : ℝ) < Real.cos (2 * Real.pi / 85) := by
  have hp1 := Real.pi_gt_d6
  have hp2 := Real.pi_lt_d6
  have hx0 : (0 : ℝ) < 2 * Real.pi / 85 := by positivity
  have hx1 : 2 * Real.pi / 85 < 0.07393 := by
    rw [div_lt_iff₀ (by norm_num)]; linarith
  obtain ⟨hl, _⟩ := cos_small_bounds (2 * Real.pi / 85) (by linarith) (by linarith)
  have hsq : (2 * Real.pi / 85) ^ 2 < (0.07393 : ℝ) ^ 2 := by
    apply pow_lt_pow_left₀ hx1 (by linarith) (by norm_num)
  have hq : (2 * Real.pi / 85) ^ 4 < (0.07393 : ℝ) ^ 4 := by
    apply pow_lt_pow_left₀ hx1 (by linarith) (by norm_num)
  norm_num at hsq hq
  linarith

theorem arccos_argument_bounds_256 :
    2 * Real.pi / 85 < Real.arccos ((Real.sqrt 2 - 1 / 256) / Real.sqrt 2) ∧
    Real.arccos ((Real.sqrt 2 - 1 / 256) / Real.sqrt 2) < Real.pi / 42 := by
  obtain ⟨h0, h1⟩ := acos_argument_bounds_256
  have hc1 := cos_pi_div_42_lt
  have hc2 := lt_cos_two_pi_div_85
  have hp1 := Real.pi_gt_d6
  have hmem : (Real.sqrt 2 - 1 / 256) / Real.sqrt 2 ∈ Set.Icc (-1 : ℝ) 1 := by
    constructor <;> linarith
  constructor
  · have hmem2 : Real.cos (2 * Real.pi / 85) ∈ Set.Icc (-1 : ℝ) 1 :=
      ⟨Real.neg_one_le_cos _, Real.cos_le_one _⟩
    have := Real.strictAntiOn_arccos hmem hmem2 (by linarith)
    rw [Real.arccos_cos (by positivity) (by linarith)] at this
    exact this
  · have hmem2 : Real.cos (Real.pi / 42) ∈ Set.Icc (-1 : ℝ) 1 :=
      ⟨Real.neg_one_le_cos _, Real.cos_le_one _⟩
    have := Real.strictAntiOn_arccos hmem2 hmem (by linarith)
    rw [Real.arccos_cos (by positivity) (by linarith)] at this
    exact this

/-- The exact quotient `2 * pi / alpha` of a `256 x 256` canvas lies strictly between `42`
and `42.5`. -/
theorem canvas_256_quotient_bounds :
    42 < 2 * Real.pi / (2 * Real.arccos ((Real.sqrt 2 - 1 / 256) / Real.sqrt 2)) ∧
    2 * Real.pi / (2 * Real.arccos ((Real.sqrt 2 - 1 / 256) / Real.sqrt 2)) < 85 / 2 := by
  obtain ⟨h1, h2⟩ := arccos_argument_bounds_256
  have hpos : 0 < 2 * Real.arccos ((Real.sqrt 2 - 1 / 256) / Real.sqrt 2) := by
    have : 0 < 2 * Real.pi / 85 := by positivity
    linarith
  constructor
  · rw [lt_div_iff₀ hpos]; linarith
  · rw [div_lt_iff₀ hpos]; linarith

/-- The slice count of the `256 x 256` canvas: the code gives `42`, the ceiling is `43`, and
a slice of the code's fan spans more than `alpha`. -/
theorem numConeSlices_canvas_256_eval :
    numConeSlices Real.sqrt Real.arccos Real.pi 256 256 = 42 ∧
    ⌈2 * Real.pi /
      (2 * Real.arccos ((Real.sqrt 2 - 1 / ((max 256 256 : Nat) : ℝ)) / Real.sqrt 2))⌉₊ = 43 ∧
    2 * Real.arccos ((Real.sqrt 2 - 1 / ((max 256 256 : Nat) : ℝ)) / Real.sqrt 2) <
      2 * Real.pi / ((numConeSlices Real.sqrt Real.arccos Real.pi 256 256 : Nat) : ℝ) := by
  obtain ⟨hq1, hq2⟩ := canvas_256_quotient_bounds
  obtain ⟨ha1, ha2⟩ := arccos_argument_bounds_256
  have hcode : numConeSlices Real.sqrt Real.arccos Real.pi 256 256 = 42 := by
    simp only [numConeSlices, calcNumConeSlices, gt_iff_lt, lt_self_iff_false, if_false,
      Nat.cast_ofNat]
    rw [Nat.floor_eq_iff (by linarith)]
    constructor
    · push_cast; linarith
    · push_cast; linarith
  have hmax : ((max 256 256 : Nat) : ℝ) = 256 := by norm_num
  refine ⟨hcode, ?_, ?_⟩
  · rw [hmax, Nat.ceil_eq_iff (by norm_num)]
    constructor
    · push_cast; linarith
    · push_cast; linarith
  · rw [hcode, hmax]
    push_cast
    linarith

/-! ## Claim about the cone tessellation -/

/-- Claim C12, evaluated at two failing inputs in exact arithmetic (`std::sqrt`, `std::acos`
and `M_PIf32` read as the real square root, arc cosine and `pi`). For the `256 x 256` canvas
the quotient `2 * pi / alpha` is about `42.26`: the code adds `0.5` and truncates, which
gives `42` slices, while the ceiling is `43`; and each of the `42` slices spans an angle
larger than `alpha`, the largest angle that keeps the faceting error within `maxError`.
For the `1 x 1` canvas the quotient is about `2.47`: the code gives `2`, the ceiling is `3`. -/
theorem numConeSlices_below_ceiling :
    (numConeSlices Real.sqrt Real.arccos Real.pi 256 256 = 42 ∧
      ⌈2 * Real.pi /
        (2 * Real.arccos ((Real.sqrt 2 - 1 / ((max 256 256 : Nat) : ℝ)) / Real.sqrt 2))⌉₊
          = 43 ∧
      2 * Real.arccos ((Real.sqrt 2 - 1 / ((max 256 256 : Nat) : ℝ)) / Real.sqrt 2) <
        2 * Real.pi / ((numConeSlices Real.sqrt Real.arccos Real.pi 256 256 : Nat) : ℝ)) ∧
    (numConeSlices Real.sqrt Real.arccos Real.pi 1 1 = 2 ∧
      ⌈2 * Real.pi /
        (2 * Real.arccos ((Real.sqrt 2 - 1 / ((max 1 1 : Nat) : ℝ)) / Real.sqrt 2))⌉₊ = 3 ∧
      2 * Real.arccos ((Real.sqrt 2 - 1 / ((max 1 1 : Nat) : ℝ)) / Real.sqrt 2) <
        2 * Real.pi / ((numConeSlices Real.sqrt Real.arccos Real.pi 1 1 : Nat) : ℝ)) :=
  ⟨numConeSlices_canvas_256_eval, numConeSlices_unit_canvas_eval⟩
